import Mathlib

/-!
Verification development for the HoloPy parameter-tying and composite-structure
core: `holopy/scattering/scatterer/composite.py` (class `Scatterers`) and
`holopy/fitting/model.py` (classes `Parametrization`, `ParameterizedObject`,
`Model`).

The embedding is shallow: Python dictionaries become association lists with
Python's update semantics (replace in place, else append); Python exceptions
become `Except`; the leaf `Parameter`/prior objects, whose class lives outside
the two embedded files, are modelled as explicit handles carrying an identity
tag (Python object identity, used by the `is` operator) and a structural value
(used by `==`).
-/

namespace HolopyModel

/-- A value stored in a scatterer's parameter slot: either a plain number
(`isinstance(v, Number)` holds) or a prior/Parameter object.  A handle carries
`hid`, its Python object identity, and `sval`, a fingerprint of its structural
content (bounds/guess), which is what the prior's `__eq__` compares.  `gval` is
the prior's guess, used when a value must be materialised. -/
inductive Value where
  | num (q : ℚ)
  | handle (hid : ℕ) (sval : ℚ) (gval : ℚ)
  deriving DecidableEq, Repr

/-- Python `isinstance(v, numbers.Number)`. -/
def Value.isNumber : Value → Bool
  | .num _ => true
  | .handle _ _ _ => false

/-- Python `==` on stored values: numbers compare by value; priors compare
structurally (two separately constructed but identical priors are `==`);
a number never equals a prior. -/
def pyEq : Value → Value → Bool
  | .num a, .num b => a == b
  | .handle _ s _, .handle _ t _ => s == t
  | _, _ => false

/-- The guard of `Scatterers._find_new_ties`:
`par is ref_par and not isinstance(par, Number)`.  Object identity on handles
is identity of `hid`; a plain number never passes the guard because of the
`Number` test. -/
def tieMatch : Value → Value → Bool
  | .handle i _ _, .handle j _ _ => i == j
  | _, _ => false

@[simp] theorem pyEq_num_num (a b : ℚ) : pyEq (.num a) (.num b) = (a == b) := rfl
@[simp] theorem pyEq_handle_handle (i j : ℕ) (s g t h : ℚ) :
    pyEq (.handle i s g) (.handle j t h) = (s == t) := rfl
@[simp] theorem tieMatch_handle_handle (i j : ℕ) (s g t h : ℚ) :
    tieMatch (.handle i s g) (.handle j t h) = (i == j) := rfl

theorem pyEq_refl (v : Value) : pyEq v v = true := by
  cases v <;> simp [pyEq]

theorem tieMatch_symm {a b : Value} (h : tieMatch a b = true) : tieMatch b a = true := by
  cases a <;> cases b <;> simp_all [tieMatch]

theorem tieMatch_trans {a b c : Value} (h1 : tieMatch a b = true)
    (h2 : tieMatch b c = true) : tieMatch a c = true := by
  cases a <;> cases b <;> cases c <;> simp_all [tieMatch]

/-! ### Association lists with Python dict semantics -/

/-- Python `d[k]` / `d.get(k)`: the value bound to `key`, if any. -/
def alookup {β : Type} : List (String × β) → String → Option β
  | [], _ => none
  | (k, v) :: rest, key => if k = key then some v else alookup rest key

/-- Python `d[k] = v` / one-entry `d.update`: replace the binding in place if
the key is present, else append the new binding at the end. -/
def aset {β : Type} : List (String × β) → String → β → List (String × β)
  | [], key, v => [(key, v)]
  | (k, w) :: rest, key, v =>
      if k = key then (k, v) :: rest else (k, w) :: aset rest key v

/-- Python `del d[k]`: drop every binding of `key`. -/
def adel {β : Type} (l : List (String × β)) (key : String) : List (String × β) :=
  l.filter (fun kv => kv.1 ≠ key)

@[simp] theorem alookup_nil {β : Type} (k : String) : alookup ([] : List (String × β)) k = none := rfl
@[simp] theorem alookup_cons {β : Type} (k key : String) (v : β) (rest : List (String × β)) :
    alookup ((k, v) :: rest) key = if k = key then some v else alookup rest key := rfl
@[simp] theorem aset_nil {β : Type} (k : String) (v : β) :
    aset ([] : List (String × β)) k v = [(k, v)] := rfl
@[simp] theorem aset_cons {β : Type} (k key : String) (w v : β) (rest : List (String × β)) :
    aset ((k, w) :: rest) key v
      = if k = key then (k, v) :: rest else (k, w) :: aset rest key v := rfl

theorem alookup_aset {β : Type} (l : List (String × β)) (k : String) (v : β) :
    alookup (aset l k v) k = some v := by
  induction l with
  | nil => simp
  | cons hd tl ih =>
      by_cases h : hd.1 = k <;> simp [aset, alookup, h, ih]

theorem alookup_aset_ne {β : Type} (l : List (String × β)) (k k' : String) (v : β)
    (h : k ≠ k') : alookup (aset l k v) k' = alookup l k' := by
  induction l with
  | nil => simp [h]
  | cons hd tl ih =>
      obtain ⟨k0, v0⟩ := hd
      by_cases hh : k0 = k
      · subst hh; simp [aset, alookup, h]
      · by_cases h2 : k0 = k' <;> simp [aset, alookup, hh, h2, Ne.symm h, ih]

theorem aset_keys {β : Type} (l : List (String × β)) (k : String) (v : β) :
    (aset l k v).map Prod.fst
      = if (alookup l k).isSome then l.map Prod.fst else l.map Prod.fst ++ [k] := by
  induction l with
  | nil => simp
  | cons hd tl ih =>
      obtain ⟨k0, v0⟩ := hd
      by_cases h : k0 = k
      · simp [aset, alookup, h]
      · by_cases h2 : (alookup tl k).isSome <;> simp [aset, alookup, h, h2, ih]

/-! ### holopy/fitting/model.py -/

/-- Modelled from the spec: the leaf `Parameter` class
(`holopy/fitting/parameter.py` is not under src/): a named scalar quantity
with a mutable `name`, a `fixed` flag, a default `guess`, and a `limit` (the
value used when fixed); parameters are shared handles compared by object
identity, modelled by the tag `pid`. -/
structure Parameter where
  pid : ℕ
  name : Option String
  fixed : Bool
  guess : ℚ
  limit : ℚ
  deriving DecidableEq, Repr

/-- An element of the `parameters` list handed to `Parametrization.__init__`:
either a bare `Parameter` or a `ComplexParameter` owning a real and an
imaginary `Parameter` under a base name. -/
inductive PrmArg where
  | plain (p : Parameter)
  | cplx (name : String) (re im : Parameter)
  deriving DecidableEq, Repr

/-- The local helper `add_par` of `Parametrization.__init__`: optionally
rename, then either append to the free list (not fixed) or record
`name → guess` in the fixed table (fixed).  The state is
(free list, fixed table); fixed-table keys are `Option String` because an
unnamed fixed parameter is keyed by Python `None`. -/
def addPar (st : List Parameter × List (Option String × ℚ)) (p : Parameter)
    (newName : Option String) : List Parameter × List (Option String × ℚ) :=
  let p' := match newName with
    | some n => { p with name := some n }
    | none => p
  if ¬ p'.fixed then (st.1 ++ [p'], st.2)
  else (st.1, ofix st.2 p'.name p'.guess)
where
  /-- `self._fixed_params[p.name] = p.guess` with `Option String` keys. -/
  ofix : List (Option String × ℚ) → Option String → ℚ → List (Option String × ℚ)
    | [], key, v => [(key, v)]
    | (k, w) :: rest, key, v =>
        if k = key then (k, v) :: rest else (k, w) :: ofix rest key v

/-- `Parametrization.__init__`: walk the argument list, splitting each
`ComplexParameter` into its two renamed halves, and dispatch every resulting
`Parameter` through `add_par`.  Returns (free-parameter list, fixed table). -/
def parametrizationInit (args : List PrmArg) :
    List Parameter × List (Option String × ℚ) :=
  args.foldl
    (fun st par =>
      match par with
      | .plain p => addPar st p none
      | .cplx n re im =>
          addPar (addPar st re (some (n ++ ".real"))) im (some (n ++ ".imag")))
    ([], [])

/-- The splitting of the argument list into individual (renamed) `Parameter`s,
in processing order. -/
def expandArgs (args : List PrmArg) : List Parameter :=
  args.foldr
    (fun par acc =>
      match par with
      | .plain p => p :: acc
      | .cplx n re im =>
          { re with name := some (n ++ ".real") }
            :: { im with name := some (n ++ ".imag") } :: acc)
    []

/-- Python `inspect.getargspec(make_scatterer).args` is modelled by handing
`make_from` the list of argument names directly; the resolved keyword value
for a slot is either a real scalar or a combined complex value. -/
inductive SlotVal where
  | real (q : ℚ)
  | cplx (re im : ℚ)
  deriving DecidableEq, Repr

/-- Membership test `s in self._fixed_params` (string key `s`). -/
def fixedHas (fixed : List (Option String × ℚ)) (s : String) : Bool :=
  (fixed.find? (fun kv => kv.1 = some s)).isSome

/-- Lookup `self._fixed_params[s]` (defaulting where the Python code would
already have checked membership). -/
def fixedGet (fixed : List (Option String × ℚ)) (s : String) : ℚ :=
  ((fixed.find? (fun kv => kv.1 = some s)).map Prod.snd).getD 0

/-- The recursion of `Parametrization.make_from` over the accepted argument
names, carrying the `for_schema` accumulator: resolve each name from the flat
map (directly, or as a `.real`/`.imag` pair with at most one half coming from
the fixed table); the final `parameters[arg]` lookup raises `KeyError` (the
spec's MissingValue) when the plain name is absent from the flat map. -/
def makeFromGo (fixed : List (Option String × ℚ)) (flat : List (String × ℚ)) :
    List String → List (String × SlotVal) → Except String (List (String × SlotVal))
  | [], acc => .ok acc
  | arg :: rest, acc =>
      if (alookup flat (arg ++ ".real")).isSome
          && (alookup flat (arg ++ ".imag")).isSome then
        makeFromGo fixed flat rest
          (acc ++ [(arg, SlotVal.cplx ((alookup flat (arg ++ ".real")).getD 0)
                                      ((alookup flat (arg ++ ".imag")).getD 0))])
      else if fixedHas fixed (arg ++ ".real")
          && (alookup flat (arg ++ ".imag")).isSome then
        makeFromGo fixed flat rest
          (acc ++ [(arg, SlotVal.cplx (fixedGet fixed (arg ++ ".real"))
                                      ((alookup flat (arg ++ ".imag")).getD 0))])
      else if (alookup flat (arg ++ ".real")).isSome
          && fixedHas fixed (arg ++ ".imag") then
        makeFromGo fixed flat rest
          (acc ++ [(arg, SlotVal.cplx ((alookup flat (arg ++ ".real")).getD 0)
                                      (fixedGet fixed (arg ++ ".imag")))])
      else
        match alookup flat arg with
        | some v => makeFromGo fixed flat rest (acc ++ [(arg, SlotVal.real v)])
        | none => .error arg

/-- `Parametrization.make_from`: Python
`inspect.getargspec(self.make_scatterer).args` is modelled by handing the
accepted argument names directly; the result is the resolved `for_schema`
keyword map handed to the construction function. -/
def makeFrom (args : List String) (fixed : List (Option String × ℚ))
    (flat : List (String × ℚ)) : Except String (List (String × SlotVal)) :=
  makeFromGo fixed flat args []

/-- Whether one argument name is resolvable by `make_from`, i.e. does not
raise `KeyError`: one of the three `.real`/`.imag` combinations applies, or
the plain name is present in the flat map.  Note the fixed table is only ever
consulted for a complex half. -/
def slotResolvable (arg : String) (fixed : List (Option String × ℚ))
    (flat : List (String × ℚ)) : Bool :=
  ((alookup flat (arg ++ ".real")).isSome && (alookup flat (arg ++ ".imag")).isSome)
  || (fixedHas fixed (arg ++ ".real") && (alookup flat (arg ++ ".imag")).isSome)
  || ((alookup flat (arg ++ ".real")).isSome && fixedHas fixed (arg ++ ".imag"))
  || (alookup flat arg).isSome

/-- The `alpha` argument of `Model.__init__`: absent, a bare number, or a
`Parameter`. -/
inductive AlphaArg where
  | noAlpha
  | numA (q : ℚ)
  | parA (p : Parameter)
  deriving DecidableEq, Repr

/-- The `alpha`-relevant part of `Model.__init__`: an unnamed `Parameter`
amplitude is renamed to `"alpha"`; `self.parameters` starts as the
scatterer's free list and the amplitude is appended whenever it is a
`Parameter` (`isinstance(self.alpha, Parameter)` — the `fixed` flag is not
consulted).  Returns (`self.parameters`, `self.alpha`). -/
def modelInit (scatParameters : List Parameter) (alpha : AlphaArg) :
    List Parameter × AlphaArg :=
  let alpha' : AlphaArg := match alpha with
    | .parA p => .parA (if p.name = none then { p with name := some "alpha" } else p)
    | a => a
  match alpha' with
  | .parA p => (scatParameters ++ [p], alpha')
  | _ => (scatParameters, alpha')

/-- What `Model.get_alpha` evaluates to: either a plain number or the stored
amplitude `Parameter` object itself. -/
inductive AlphaRes where
  | val (q : ℚ)
  | obj (p : Parameter)
  deriving DecidableEq, Repr

/-- `Model.get_alpha(pars)`: `pars['alpha']` guarded by
`except (KeyError, TypeError)` (a `None` argument raises `TypeError`); on
failure return `1.0` when no amplitude was configured, else `self.alpha`
unchanged — a `Parameter` amplitude is returned as the object, not as its
guess or fixed value. -/
def getAlpha (alpha : AlphaArg) (pars : Option (List (String × ℚ))) : AlphaRes :=
  match pars.bind (fun d => alookup d "alpha") with
  | some v => .val v
  | none =>
      match alpha with
      | .noAlpha => .val 1
      | .numA q => .val q
      | .parA p => .obj p

/-- Whether an `Except` computation raised. -/
def isErr {ε α : Type} : Except ε α → Bool
  | .error _ => true
  | .ok _ => false

@[simp] theorem isErr_error {ε α : Type} (e : ε) : isErr (.error e : Except ε α) = true := rfl
@[simp] theorem isErr_ok {ε α : Type} (a : α) : isErr (.ok a : Except ε α) = false := rfl

@[simp] theorem except_bind_error {ε α β : Type} (e : ε) (f : α → Except ε β) :
    (Except.error e >>= f) = Except.error e := rfl
@[simp] theorem except_bind_ok {ε α β : Type} (a : α) (f : α → Except ε β) :
    (Except.ok a >>= f) = f a := rfl

/-! ### Claims C6 to C9 -/

/-- C9, counterexample: passing the identical free `Parameter` handle twice to
`Parametrization.__init__` appends it twice — exact-handle duplicates are not
skipped and the free-parameter names are not unique, contrary to the claim. -/
theorem C9_counterexample :
    (parametrizationInit
        [.plain ⟨0, some "x", false, 1, 0⟩, .plain ⟨0, some "x", false, 1, 0⟩]).1
      = [⟨0, some "x", false, 1, 0⟩, ⟨0, some "x", false, 1, 0⟩]
    ∧ ¬ ((parametrizationInit
        [.plain ⟨0, some "x", false, 1, 0⟩, .plain ⟨0, some "x", false, 1, 0⟩]).1.map
          Parameter.name).Nodup := by
  exact ⟨rfl, by decide⟩

/-- C9, amended: `Parametrization.__init__` records every fixed `Parameter`
in the fixed table as its name mapped to its guess and never places it in the
free list, and appends every non-fixed `Parameter` to the free list
unconditionally — no duplicate handle is skipped, so free-parameter names need
not be unique.  The free list is exactly the non-fixed part of the expanded
argument list and the fixed table is the fold of the fixed part. -/
theorem C9_amended (args : List PrmArg) :
    (parametrizationInit args).1 = (expandArgs args).filter (fun p => !p.fixed)
    ∧ (parametrizationInit args).2
        = (expandArgs args).foldl
            (fun t p => if p.fixed then addPar.ofix t p.name p.guess else t) []
    ∧ ∀ p ∈ (parametrizationInit args).1, p.fixed = false := by
  have main : ∀ (l : List PrmArg) (st : List Parameter × List (Option String × ℚ)),
      l.foldl
        (fun st par =>
          match par with
          | .plain p => addPar st p none
          | .cplx n re im =>
              addPar (addPar st re (some (n ++ ".real"))) im (some (n ++ ".imag")))
        st
      = (st.1 ++ (expandArgs l).filter (fun p => !p.fixed),
         (expandArgs l).foldl
           (fun t p => if p.fixed then addPar.ofix t p.name p.guess else t) st.2) := by
    intro l
    induction l with
    | nil => intro st; simp [expandArgs]
    | cons hd tl ih =>
        intro st
        cases hd with
        | plain p =>
            rw [List.foldl_cons, ih]
            by_cases hf : p.fixed <;> simp [addPar, expandArgs, hf]
        | cplx n re im =>
            rw [List.foldl_cons, ih]
            by_cases hre : re.fixed <;> by_cases him : im.fixed <;>
              simp [addPar, expandArgs, hre, him]
  refine ⟨?_, ?_, ?_⟩
  · rw [parametrizationInit, main]; simp
  · rw [parametrizationInit, main]
  · intro p hp
    rw [parametrizationInit, main] at hp
    simp at hp
    simpa using hp.2

/-- C8, counterexample: a fixed plain scalar argument (`r` recorded in the
fixed table) that is absent from the flat map is not supplied from the fixed
table: `make_from` raises `KeyError` (MissingValue), contrary to the claim. -/
theorem C8_counterexample :
    makeFrom ["r"] [(some "r", 2)] [] = .error "r" := by
  rfl

/-- C8, amended: `make_from` raises MissingValue exactly when some accepted
argument name is not resolvable, where resolvable means one of the three
`.real`/`.imag` combinations of flat map and fixed table applies, or the plain
name is present in the flat map itself; the fixed table is consulted only for
complex halves, so a fixed plain scalar absent from the flat map raises. -/
theorem C8_amended (args : List String) (fixed : List (Option String × ℚ))
    (flat : List (String × ℚ)) :
    isErr (makeFrom args fixed flat) = true
      ↔ ∃ arg ∈ args, slotResolvable arg fixed flat = false := by
  have main : ∀ (l : List String) (acc : List (String × SlotVal)),
      isErr (makeFromGo fixed flat l acc)
        = l.any (fun arg => !(slotResolvable arg fixed flat)) := by
    intro l
    induction l with
    | nil => intro acc; simp [makeFromGo]
    | cons a tl ih =>
        intro acc
        rw [List.any_cons]
        by_cases h1 : ((alookup flat (a ++ ".real")).isSome
            && (alookup flat (a ++ ".imag")).isSome) = true
        · rw [makeFromGo, if_pos h1, ih]
          simp [slotResolvable, h1]
        · by_cases h2 : (fixedHas fixed (a ++ ".real")
              && (alookup flat (a ++ ".imag")).isSome) = true
          · rw [makeFromGo, if_neg h1, if_pos h2, ih]
            simp only [slotResolvable, h2]
            simp
          · by_cases h3 : ((alookup flat (a ++ ".real")).isSome
                && fixedHas fixed (a ++ ".imag")) = true
            · rw [makeFromGo, if_neg h1, if_neg h2, if_pos h3, ih]
              simp only [slotResolvable, h3]
              simp
            · rw [makeFromGo, if_neg h1, if_neg h2, if_neg h3]
              cases hv : alookup flat a with
              | some v =>
                  rw [ih]
                  simp [slotResolvable, hv]
              | none =>
                  have hres : slotResolvable a fixed flat = false := by
                    have h1' := Bool.eq_false_iff.mpr h1
                    have h2' := Bool.eq_false_iff.mpr h2
                    have h3' := Bool.eq_false_iff.mpr h3
                    simp [slotResolvable, hv, h1', h2', h3']
                  simp [hres]
  constructor
  · intro h
    rw [makeFrom, main] at h
    simpa using h
  · intro h
    rw [makeFrom, main]
    simpa using h

/-- C6, counterexample: a fixed `Parameter` amplitude is appended to the
model's parameter list — `Model.__init__` tests only
`isinstance(alpha, Parameter)`, never `alpha.fixed`, contrary to the claim
that a fixed amplitude never appears in the free vector. -/
theorem C6_counterexample :
    (modelInit [] (.parA ⟨0, some "alpha", true, 2, 2⟩)).1
        = [⟨0, some "alpha", true, 2, 2⟩]
    ∧ (⟨0, some "alpha", true, 2, 2⟩ : Parameter).fixed = true := by
  exact ⟨rfl, rfl⟩

/-- C6, amended: the model's parameter list is the scatterer's free list with
the (possibly auto-named) amplitude appended whenever the amplitude is a
`Parameter`, fixed or not; a numeric or absent amplitude is never appended. -/
theorem C6_amended (sp : List Parameter) (alpha : AlphaArg) :
    (modelInit sp alpha).1
      = sp ++ (match alpha with
          | .parA p => [if p.name = none then { p with name := some "alpha" } else p]
          | _ => []) := by
  cases alpha with
  | noAlpha => simp [modelInit]
  | numA q => simp [modelInit]
  | parA p => simp [modelInit]

/-- C7, counterexample: with a free `Parameter` amplitude (guess 1/2) and a
flat map with no `'alpha'` entry, `get_alpha` returns the `Parameter` object
itself, not its guess, contrary to the claim. -/
theorem C7_counterexample :
    getAlpha (.parA ⟨0, some "alpha", false, 1/2, 0⟩) (some [])
        = .obj ⟨0, some "alpha", false, 1/2, 0⟩
    ∧ AlphaRes.obj ⟨0, some "alpha", false, 1/2, 0⟩
        ≠ .val (⟨0, some "alpha", false, 1/2, 0⟩ : Parameter).guess := by
  exact ⟨rfl, by decide⟩

/-- C7, amended: `get_alpha` returns the flat map's `'alpha'` entry when
present; otherwise it returns exactly `1.0` when no amplitude was configured
(in particular on an empty map or a `None` argument), the bare number when the
amplitude is a number, and the stored amplitude `Parameter` object itself —
not its guess or fixed value — when the amplitude is a `Parameter`. -/
theorem C7_amended :
    (∀ (a : AlphaArg) (d : List (String × ℚ)) (v : ℚ),
        alookup d "alpha" = some v → getAlpha a (some d) = .val v)
    ∧ (∀ (a : AlphaArg) (pars : Option (List (String × ℚ))),
        pars.bind (fun d => alookup d "alpha") = none →
          getAlpha a pars
            = match a with
              | .noAlpha => .val 1
              | .numA q => .val q
              | .parA p => .obj p) := by
  constructor
  · intro a d v hv
    simp [getAlpha, hv]
  · intro a pars h
    simp [getAlpha, h]

/-- C7, amended, witness at concrete inputs. -/
theorem C7_amended_witness :
    getAlpha .noAlpha (some [("alpha", 3)]) = .val 3
    ∧ getAlpha .noAlpha (some []) = .val 1 := by
  refine ⟨C7_amended.1 .noAlpha [("alpha", 3)] 3 (by rfl), ?_⟩
  have := C7_amended.2 .noAlpha (some []) (by rfl)
  simpa using this

/-! ### holopy/scattering/scatterer/composite.py: point classification and
spatial-transform argument dispatch -/

/-- `Scatterers.in_domain(points)`, with the children's containment tests
(`s.contains(points)`, computed by the external primitive collaborators)
supplied as boolean masks: `mask0` is child 0's mask over the query points and
`rest` the masks of children 1, 2, ….  The code initialises
`ind = scatterers[0].contains(points).astype('int')` — so a point contained by
child 0 starts at index 1, not 0 — and then for each later child `i`
unconditionally overwrites `ind[nz] = i+1` wherever that child's mask holds,
so the last matching later child wins. -/
def in_domain (mask0 : List Bool) (rest : List (List Bool)) : List ℕ :=
  let ind0 := mask0.map (fun b => if b then 1 else 0)
  rest.enum.foldl
    (fun ind im => (ind.zip im.2).map (fun vc => if vc.2 then im.1 + 1 else vc.1))
    ind0

/-- An argument of `translated`/`rotated`: a bare number or an array-like. -/
inductive PyCoord where
  | scalar (q : ℚ)
  | vec (l : List ℚ)
  deriving DecidableEq, Repr

/-- Modelled from the spec: `holopy.core.utils.ensure_array` (not under src/)
wraps a bare number into a one-element array and returns array-likes
unchanged. -/
def ensure_array : PyCoord → List ℚ
  | .scalar q => [q]
  | .vec l => l

/-- Outcome of the coordinate dispatch at the top of `Scatterers.translated`. -/
inductive TransDispatch where
  /-- branch `trans_coords = ensure_array(coord1)` -/
  | vector (l : List ℚ)
  /-- branch `trans_coords = np.array([coord1, coord2, coord3])` -/
  | triple (a : PyCoord) (b c : ℚ)
  /-- `raise InvalidScatterer(self, "Cannot interpret translation coordinates")` -/
  | errorCoords
  deriving DecidableEq, Repr

/-- The argument dispatch of `Scatterers.translated`.  The first guard is the
code's `coord2 is None and len(ensure_array(coord1)==3)` — note the
parenthesisation: `ensure_array(coord1)==3` is an elementwise comparison, so
its `len` is the length of `coord1` as an array and the guard is truthy for
every nonempty input, not only for 3-vectors. -/
def translated_dispatch (coord1 : PyCoord) (coord2 coord3 : Option ℚ) :
    TransDispatch :=
  if coord2 = none ∧ ((ensure_array coord1).map (fun q => q == (3 : ℚ))).length ≠ 0 then
    .vector (ensure_array coord1)
  else
    match coord2, coord3 with
    | some b, some c => .triple coord1 b c
    | _, _ => .errorCoords

/-- Outcome of the angle dispatch at the top of `Scatterers.rotated`. -/
inductive RotDispatch where
  /-- `alpha, beta, gamma = ang1` succeeded (a length-3 array-like) -/
  | unpacked (a b c : ℚ)
  /-- `alpha, beta, gamma = ang1` raised (TypeError on a scalar, ValueError on
  an array of length other than 3) -/
  | unpackError
  /-- `alpha=ang1; beta=ang2; gamma=ang3` with a scalar first angle -/
  | threeAngles (a b c : ℚ)
  /-- `alpha=ang1; beta=ang2; gamma=ang3` with an array-like first angle -/
  | mixed (v : List ℚ) (b c : ℚ)
  /-- `raise InvalidScatterer(self, "Cannot interpret rotation coordinates")` -/
  | errorCoords
  deriving DecidableEq, Repr

/-- The argument dispatch of `Scatterers.rotated`, with the same misparsed
guard `ang2 is None and len(ensure_array(ang1)==3)` as `translated`. -/
def rotated_dispatch (ang1 : PyCoord) (ang2 ang3 : Option ℚ) : RotDispatch :=
  if ang2 = none ∧ ((ensure_array ang1).map (fun q => q == (3 : ℚ))).length ≠ 0 then
    match ang1 with
    | .vec [a, b, c] => .unpacked a b c
    | _ => .unpackError
  else
    match ang1, ang2, ang3 with
    | .scalar a, some b, some c => .threeAngles a b c
    | .vec v, some b, some c => .mixed v b c
    | _, _, _ => .errorCoords

/-- C4: the claim (and the comment inside `index_at`: "This will pick out the
first scatterer") says `in_domain` assigns the first containing child in list
order, defaulting to child 0.  The code contradicts this: a point contained by
both child 0 and child 1 is assigned 1 (the last later match wins), a point
contained only by child 0 is assigned 1 because of `astype('int')` on child
0's mask (even with a single child, where index 1 does not exist), and a point
contained only by child 0 among two children is likewise assigned 1. -/
theorem C4_code_bug :
    in_domain [true] [[true]] = [1]
    ∧ in_domain [true] [] = [1]
    ∧ in_domain [true] [[false]] = [1]
    ∧ in_domain [true, false] [[true, false], [true, false]] = [2, 0] := by
  exact ⟨rfl, rfl, rfl, rfl⟩

/-- C5: the claim says `translated`/`rotated` raise the coordinates error
(`InvalidScatterer`, the spec's UnrecognizedCoordinates) whenever the
arguments are neither a 3-vector nor three scalars.  The code's guard
`len(ensure_array(coord1)==3)` is truthy for every nonempty first argument,
so a bare scalar with no second and third argument is accepted as a
"translation vector" of length 1 and no coordinates error is raised, and a
2-vector is likewise accepted; in `rotated` the same inputs fail later with a
TypeError/ValueError from tuple unpacking, not with the coordinates error.
Only the two-scalars form reaches the coordinates error as claimed. -/
theorem C5_code_bug :
    translated_dispatch (.scalar 5) none none = .vector [5]
    ∧ translated_dispatch (.vec [1, 2]) none none = .vector [1, 2]
    ∧ rotated_dispatch (.scalar 5) none none = .unpackError
    ∧ rotated_dispatch (.vec [1, 2]) none none = .unpackError
    ∧ translated_dispatch (.scalar 1) (some 2) none = .errorCoords := by
  refine ⟨?_, ?_, ?_, ?_, ?_⟩ <;> decide

/-! ### holopy/scattering/scatterer/composite.py: the tie engine

Children of a composite are primitive scatterers, modelled through the
named-quantity interface the composite relies on. -/

/-- Modelled from the spec: a primitive child scatterer
(`Sphere`/`Scatterer`, not under src/) seen through its named-quantity
interface: an ordered name-to-value mapping `params`. -/
structure Prim where
  params : List (String × Value)
  deriving DecidableEq, Repr

/-- Modelled from the spec: the primitive's `from_parameters(raw_map,
overwrite)` (in `holopy/scattering/scatterer/scatterer.py`, not under src/):
rebuild the object with supplied values replacing the current ones; a fixed
(plain-number) quantity keeps its stored value unless `overwrite` is true; a
prior absent from the map is replaced by its guess ("any priors are replaced
with their guesses if not included in passed-in parameters"). -/
def Prim.from_parameters (p : Prim) (pars : List (String × Value))
    (overwrite : Bool) : Prim :=
  { params := p.params.map (fun kv =>
      match kv.2, alookup pars kv.1 with
      | .num q, none => (kv.1, .num q)
      | .num q, some v => (kv.1, if overwrite then v else .num q)
      | .handle _ _ g, none => (kv.1, .num g)
      | .handle _ _ _, some v => (kv.1, v)) }

/-- The state of a `Scatterers` composite: the child list and the tie table
`self.ties` (display name to list of raw namespaced member names). -/
structure Scatterers where
  scatterers : List Prim
  ties : List (String × List String)
  deriving DecidableEq, Repr

/-- The namespacing `'{0}:{1}'.format(i, key)` of `raw_parameters`. -/
def pfx (i : ℕ) (name : String) : String :=
  Nat.repr i ++ ":" ++ name

/-- The enumeration loop of `raw_parameters`, starting at child index `i`:
each child contributes its parameters under its index prefix; per-child key
sets are disjoint, so the successive dict updates are concatenation. -/
def rawFrom (i : ℕ) : List Prim → List (String × Value)
  | [] => []
  | p :: rest => p.params.map (fun kv => (pfx i kv.1, kv.2)) ++ rawFrom (i + 1) rest

/-- `Scatterers.raw_parameters`: `'{0}:{1}'.format(i, key)` over
`enumerate(self.scatterers)`. -/
def Scatterers.raw_parameters (s : Scatterers) : List (String × Value) :=
  rawFrom 0 s.scatterers

/-- `Scatterers._all_ties`: `sum(self.ties.values(), [])`. -/
def allTies (ties : List (String × List String)) : List String :=
  ties.flatMap Prod.snd

/-- `Scatterers._reversed_ties`: member name to group display name, built by
successive dict update over the groups in order. -/
def reversedTies (ties : List (String × List String)) : List (String × String) :=
  ties.foldl (fun acc tg => tg.2.foldl (fun a t => aset a t tg.1) acc) []

/-- The errors `_check_ties` can raise. -/
inductive CheckErr where
  /-- `ValueError("Tied parameter ... not present in raw parameters ...")` -/
  | unknownMember (raw : String)
  /-- `ValueError("Tied parameters ... are not equal ...")` -/
  | inconsistent (raw first : String)
  /-- `IndexError` from `raw_names[0]` on an empty group -/
  | emptyGroup (tied : String)
  /-- `IndexError` from `new_name.split(':', 1)[1]` on a name with no colon -/
  | noColon (name : String)
  deriving DecidableEq, Repr

/-- The body of `_check_ties` for one group: first every member must be a key
of the current raw parameters, then every member's value must compare equal
(Python `==`) to the first member's value; `raw_names[0]` raises on an empty
group. -/
def checkGroup (raw : List (String × Value)) (tied : String)
    (grp : List String) : Except CheckErr Unit :=
  match grp.find? (fun r => (alookup raw r).isNone) with
  | some r => .error (.unknownMember r)
  | none =>
      match grp with
      | [] => .error (.emptyGroup tied)
      | g0 :: _ =>
          match grp.find? (fun r => !(pyEq ((alookup raw r).getD (.num 0))
              ((alookup raw g0).getD (.num 0)))) with
          | some r => .error (.inconsistent r g0)
          | none => .ok ()

/-- `Scatterers._check_ties`, iterating the groups in table order. -/
def checkTies (raw : List (String × Value)) :
    List (String × List String) → Except CheckErr Unit
  | [] => .ok ()
  | (d, g) :: rest => do
      checkGroup raw d g
      checkTies raw rest

/-- `Scatterers._check_ties` as a method. -/
def Scatterers.check_ties (s : Scatterers) : Except CheckErr Unit :=
  checkTies s.raw_parameters s.ties

/-- Python `name.split(':', 1)`: the part before the first colon and the
remainder, or the whole string when there is no colon. -/
def splitFirst (s : String) : List String :=
  let pre := s.toList.takeWhile (fun c => c ≠ ':')
  match s.toList.dropWhile (fun c => c ≠ ':') with
  | [] => [s]
  | _ :: after => [String.mk pre, String.mk after]

/-- The tie-table update of `Scatterers.add_tie` (before the closing
`_check_ties`): append `new` to the group keyed `old`, else to the group
containing `old` (via `_reversed_ties`), else create a group keyed by the
suffix of `new` after its first colon (falling back to the full `new` on key
collision) with members `[new, old]`.  `new_name.split(':', 1)[1]` raises
`IndexError` when `new` has no colon. -/
def addTieTable (ties : List (String × List String)) (old nw : String) :
    Except CheckErr (List (String × List String)) :=
  if (alookup ties old).isSome then
    .ok (aset ties old (((alookup ties old).getD []) ++ [nw]))
  else if old ∈ allTies ties then
    .ok (aset ties ((alookup (reversedTies ties) old).getD "")
      (((alookup ties ((alookup (reversedTies ties) old).getD "")).getD []) ++ [nw]))
  else
    match splitFirst nw with
    | [_, suffix] =>
        if (alookup ties suffix).isSome then .ok (aset ties nw [nw, old])
        else .ok (aset ties suffix [nw, old])
    | _ => .error (.noColon nw)

/-- `Scatterers.add_tie(old_name, new_name)`: update the table, then run
`_check_ties`. -/
def Scatterers.add_tie (s : Scatterers) (old nw : String) :
    Except CheckErr Scatterers :=
  match addTieTable s.ties old nw with
  | .error e => .error e
  | .ok t =>
      match checkTies (Scatterers.raw_parameters { s with ties := t })
          t with
      | .error e => .error e
      | .ok _ => .ok { s with ties := t }

/-- Modelled from the spec: `holopy.core.utils.dict_without` (not under
src/): a copy of the dict with the given key removed, order preserved. -/
def dictWithout (l : List (String × Value)) (key : String) : List (String × Value) :=
  l.filter (fun kv => kv.1 ≠ key)

/-- The loop of `Scatterers._find_new_ties` over the snapshot
`reference_parameters`: a key not currently in any tie group is tied to the
first other key holding the identical non-number handle, if any
(`par is ref_par and not isinstance(par, Number)`), via `add_tie(ref_key,
fullkey)` — which re-checks the table and may raise. -/
def findTiesGo (raw : List (String × Value)) :
    List (String × Value) → Scatterers → Except CheckErr Scatterers
  | [], s => .ok s
  | (fullkey, par) :: rest, s =>
      if fullkey ∈ allTies s.ties then findTiesGo raw rest s
      else
        match (dictWithout raw fullkey).find? (fun rp => tieMatch par rp.2) with
        | some rp =>
            match s.add_tie rp.1 fullkey with
            | .error e => .error e
            | .ok s' => findTiesGo raw rest s'
        | none => findTiesGo raw rest s

/-- `Scatterers._find_new_ties`: the snapshot is taken once; the children do
not change during discovery. -/
def Scatterers.find_new_ties (s : Scatterers) : Except CheckErr Scatterers :=
  findTiesGo s.raw_parameters s.raw_parameters s

/-- `Scatterers.__init__(scatterers, ties)`: store both, then
`_find_new_ties()` then `_check_ties()`. -/
def mkScatterers (scatterers : List Prim) (ties : List (String × List String)) :
    Except CheckErr Scatterers :=
  match Scatterers.find_new_ties ⟨scatterers, ties⟩ with
  | .error e => .error e
  | .ok s1 =>
      match checkTies s1.raw_parameters s1.ties with
      | .error e => .error e
      | .ok _ => .ok s1

/-- The overlay loop of `Scatterers.parameters`: one entry per group, keyed
by the display name, holding the value of the group's first member
(`parameters.update(ties)`). -/
def tieOverlay (raw : List (String × Value)) (ties : List (String × List String))
    (base : List (String × Value)) : List (String × Value) :=
  ties.foldl
    (fun acc tg => aset acc tg.1 ((alookup raw (tg.2.headD "")).getD (.num 0)))
    base

/-- `Scatterers.parameters` (the read view): re-run `_check_ties`, drop every
raw entry that is a tie member, then overlay one entry per group, keyed by
the display name with the value of the group's first member. -/
def Scatterers.parameters (s : Scatterers) :
    Except CheckErr (List (String × Value)) :=
  match checkTies s.raw_parameters s.ties with
  | .error e => .error e
  | .ok _ =>
      .ok (tieOverlay s.raw_parameters s.ties
        (s.raw_parameters.filter (fun kv => kv.1 ∉ allTies s.ties)))

/-- The errors `Scatterers.from_parameters` can raise. -/
inductive FpErr where
  /-- re-raised from the reconstructed composite's `__init__` -/
  | check (e : CheckErr)
  /-- `int(parts[0])` raised `ValueError`, or `collected[n]` raised
  `IndexError`, on a colon-containing key whose prefix is not a valid child
  index -/
  | badKey (k : String)
  deriving DecidableEq, Repr

/-- Python `int(p)` as used on the index part of a namespaced key.  Engine
keys carry canonical decimal indices; other strings are modelled as the
`ValueError` path (Python additionally accepts signs and whitespace, and a
negative index would wrap around — both unreachable for engine-produced
keys). -/
def parseNat (s : String) : Option ℕ :=
  if s.toList ≠ [] ∧ s.toList.all Char.isDigit then
    some (s.toList.foldl (fun n c => n * 10 + (c.toNat - '0'.toNat)) 0)
  else none

/-- The tie-broadcast loop at the top of `from_parameters`: for every group
whose display name is a key of the supplied dict, write the display's value
to every raw member name (`new_parameters.update`); a display name absent
from the dict is skipped (`except KeyError: pass`). -/
def broadcastTies : List (String × List String) → List (String × Value) →
    List (String × Value)
  | [], pars => pars
  | (d, g) :: rest, pars =>
      broadcastTies rest
        (match alookup pars d with
         | some tv => g.foldl (fun d' m => aset d' m tv) pars
         | none => pars)

/-- One step of the partition loop of `from_parameters`: a key with a colon
is routed to `collected[int(prefix)][suffix]`; a key without a colon is
skipped (`len(parts) == 2` fails). -/
def collectStep (nScat : ℕ) (coll : List (List (String × Value)))
    (kv : String × Value) : Except FpErr (List (List (String × Value))) :=
  match splitFirst kv.1 with
  | [pre, par] =>
      match parseNat pre with
      | some n =>
          if n < nScat then .ok (coll.set n (aset (coll.getD n []) par kv.2))
          else .error (.badKey kv.1)
      | none => .error (.badKey kv.1)
  | _ => .ok coll

/-- `Scatterers.from_parameters(new_parameters, overwrite)`: broadcast tie
values into the supplied dict (mutating it — the mutated dict is returned
alongside the result), partition the entries by leading child index,
delegate reconstruction to each child, and rebuild through
`type(self)(**self_dict)` — i.e. `Scatterers.__init__` with the new child
list and the same tie table, which re-runs discovery and the consistency
check. -/
def Scatterers.from_parameters (s : Scatterers) (pars : List (String × Value))
    (overwrite : Bool) :
    Except FpErr (Scatterers × List (String × Value)) :=
  match (broadcastTies s.ties pars).foldlM (collectStep s.scatterers.length)
      (List.replicate s.scatterers.length []) with
  | .error e => .error e
  | .ok coll =>
      match mkScatterers
          ((s.scatterers.zip coll).map
            (fun pc => pc.1.from_parameters pc.2 overwrite)) s.ties with
      | .ok s' => .ok (s', broadcastTies s.ties pars)
      | .error e => .error (.check e)

/-! ### Decimal indices and the namespaced key format -/

/-- Reference digit expansion of a natural number, most significant digit
first. -/
def natChars (n : ℕ) : List Char :=
  if n < 10 then [Nat.digitChar n]
  else natChars (n / 10) ++ [Nat.digitChar (n % 10)]
  termination_by n
  decreasing_by exact Nat.div_lt_self (by omega) (by omega)

theorem digitChar_isDigit {k : ℕ} (h : k < 10) : (Nat.digitChar k).isDigit = true := by
  interval_cases k <;> decide

theorem digitChar_ne_colon {k : ℕ} (h : k < 10) : Nat.digitChar k ≠ ':' := by
  interval_cases k <;> decide

theorem digitChar_val {k : ℕ} (h : k < 10) :
    (Nat.digitChar k).toNat - '0'.toNat = k := by
  interval_cases k <;> decide

theorem natChars_ne_nil (n : ℕ) : natChars n ≠ [] := by
  rw [natChars]
  split <;> simp

theorem natChars_digits (n : ℕ) : ∀ c ∈ natChars n, c.isDigit = true := by
  induction n using Nat.strong_induction_on with
  | _ n ih =>
      rw [natChars]
      split
      · intro c hc
        simp only [List.mem_singleton] at hc
        subst hc
        exact digitChar_isDigit (by omega)
      · intro c hc
        rcases List.mem_append.mp hc with h | h
        · exact ih (n / 10) (Nat.div_lt_self (by omega) (by omega)) c h
        · simp only [List.mem_singleton] at h
          subst h
          exact digitChar_isDigit (Nat.mod_lt n (by omega))

theorem natChars_foldl (n : ℕ) :
    ∀ a : ℕ, (natChars n).foldl (fun m c => m * 10 + (c.toNat - '0'.toNat)) a
      = a * 10 ^ (natChars n).length + n := by
  induction n using Nat.strong_induction_on with
  | _ n ih =>
      intro a
      rw [natChars]
      split
      · rename_i h
        simp only [List.foldl_cons, List.foldl_nil]
        rw [digitChar_val h]
        simp
      · rename_i h
        rw [List.foldl_append, ih (n / 10) (Nat.div_lt_self (by omega) (by omega)) a]
        simp only [List.foldl_cons, List.foldl_nil, List.length_append,
          List.length_singleton]
        rw [digitChar_val (Nat.mod_lt n (by omega))]
        have : a * 10 ^ ((natChars (n / 10)).length + 1)
            = a * 10 ^ (natChars (n / 10)).length * 10 := by ring
        rw [this]
        have := Nat.div_add_mod n 10
        omega

theorem toDigitsCore_eq (fuel : ℕ) :
    ∀ (n : ℕ) (ds : List Char), n < fuel →
      Nat.toDigitsCore 10 fuel n ds = natChars n ++ ds := by
  induction fuel with
  | zero => intro n ds h; omega
  | succ fuel ih =>
      intro n ds h
      rw [Nat.toDigitsCore]
      by_cases h10 : n / 10 = 0
      · have hn : n < 10 := by omega
        simp only [h10, if_true]
        rw [natChars, if_pos hn, Nat.mod_eq_of_lt hn]
        rfl
      · have hn : ¬ n < 10 := by omega
        simp only [h10, if_false]
        rw [ih (n / 10) _ (by
          have : n / 10 < n := Nat.div_lt_self (by omega) (by omega)
          omega)]
        conv_rhs => rw [natChars]
        rw [if_neg hn]
        simp

theorem repr_toList (n : ℕ) : (Nat.repr n).toList = natChars n := by
  have h1 : Nat.repr n = (Nat.toDigits 10 n).asString := rfl
  have h2 : Nat.toDigits 10 n = Nat.toDigitsCore 10 (n + 1) n [] := rfl
  rw [h1, h2, toDigitsCore_eq (n + 1) n [] (by omega)]
  simp [List.asString, String.toList]

theorem repr_no_colon (n : ℕ) : ':' ∉ (Nat.repr n).toList := by
  rw [repr_toList]
  intro h
  have := natChars_digits n ':' h
  simp [Char.isDigit] at this

theorem parseNat_repr (n : ℕ) : parseNat (Nat.repr n) = some n := by
  rw [parseNat, if_pos]
  · rw [repr_toList]
    have := natChars_foldl n 0
    simp only [Nat.zero_mul, Nat.zero_add] at this
    rw [this]
  · rw [repr_toList]
    refine ⟨natChars_ne_nil n, ?_⟩
    rw [List.all_eq_true]
    exact natChars_digits n

theorem repr_inj {m n : ℕ} (h : Nat.repr m = Nat.repr n) : m = n := by
  have := parseNat_repr m
  rw [h, parseNat_repr n] at this
  exact (Option.some_inj.mp this).symm

theorem takeWhile_append_all {p : Char → Bool} {l1 l2 : List Char}
    (h : ∀ c ∈ l1, p c = true) :
    (l1 ++ l2).takeWhile p = l1 ++ l2.takeWhile p := by
  induction l1 with
  | nil => simp
  | cons c tl ih =>
      simp only [List.cons_append, List.takeWhile_cons, h c (by simp), if_true]
      rw [ih (fun c' hc' => h c' (by simp [hc']))]

theorem dropWhile_append_all {p : Char → Bool} {l1 l2 : List Char}
    (h : ∀ c ∈ l1, p c = true) :
    (l1 ++ l2).dropWhile p = l2.dropWhile p := by
  induction l1 with
  | nil => simp
  | cons c tl ih =>
      simp only [List.cons_append, List.dropWhile_cons, h c (by simp), if_true]
      exact ih (fun c' hc' => h c' (by simp [hc']))

theorem mk_toList (s : String) : String.mk s.toList = s := by
  cases s
  rfl

theorem toList_append (a b : String) : (a ++ b).toList = a.toList ++ b.toList := by
  cases a
  cases b
  rfl

theorem colon_toList : (":" : String).toList = [':'] := by decide

theorem splitFirst_pfx (i : ℕ) (name : String) :
    splitFirst (pfx i name) = [Nat.repr i, name] := by
  have hkey : (pfx i name).toList = (Nat.repr i).toList ++ ':' :: name.toList := by
    rw [pfx, toList_append, toList_append, colon_toList, List.append_assoc]
    rfl
  have hall : ∀ c ∈ (Nat.repr i).toList, (fun c => decide (c ≠ ':')) c = true := by
    intro c hc
    simp only [decide_eq_true_eq]
    intro hceq
    exact repr_no_colon i (hceq ▸ hc)
  simp only [splitFirst, hkey, takeWhile_append_all hall, dropWhile_append_all hall,
    List.takeWhile_cons, List.dropWhile_cons]
  simp [mk_toList]

theorem pfx_inj {i j : ℕ} {a b : String} (h : pfx i a = pfx j b) :
    i = j ∧ a = b := by
  have h2 := splitFirst_pfx i a
  rw [h, splitFirst_pfx j b] at h2
  simp only [List.cons.injEq, and_true] at h2
  exact ⟨(repr_inj h2.1).symm, h2.2.symm⟩

theorem pfx_has_colon (i : ℕ) (name : String) : ':' ∈ (pfx i name).toList := by
  rw [pfx, toList_append, toList_append, colon_toList]
  simp

/-! ### The consistency check: characterization -/

/-- A single group passes `_check_ties` exactly when it is nonempty, every
member is a current raw key, and every member's value is Python-`==` to the
first member's value. -/
theorem checkGroup_ok_iff (raw : List (String × Value)) (d : String)
    (g : List String) :
    checkGroup raw d g = .ok ()
      ↔ g ≠ []
        ∧ (∀ m ∈ g, (alookup raw m).isSome = true)
        ∧ (∀ m ∈ g,
            pyEq ((alookup raw m).getD (.num 0))
              ((alookup raw (g.headD "")).getD (.num 0)) = true) := by
  unfold checkGroup
  cases hfind : g.find? (fun r => (alookup raw r).isNone) with
  | some r =>
      simp only [reduceCtorEq, false_iff]
      intro hc
      have hmem := List.mem_of_find?_eq_some hfind
      have hprop := List.find?_some hfind
      have := hc.2.1 r hmem
      simp only [Option.isNone_iff_eq_none, decide_eq_true_eq] at hprop
      rw [hprop] at this
      simp at this
  | none =>
      have hall : ∀ m ∈ g, (alookup raw m).isSome = true := by
        intro m hm
        have := List.find?_eq_none.mp hfind m hm
        simp only [Option.isNone_iff_eq_none, decide_eq_true_eq] at this
        cases hv : alookup raw m with
        | none => exact absurd hv this
        | some v => rfl
      cases g with
      | nil => simp
      | cons g0 rest =>
          cases hfind2 : (g0 :: rest).find?
              (fun r => !(pyEq ((alookup raw r).getD (.num 0))
                ((alookup raw g0).getD (.num 0)))) with
          | some r =>
              simp only [hfind2, reduceCtorEq, false_iff]
              intro hc
              have hmem := List.mem_of_find?_eq_some hfind2
              have hprop := List.find?_some hfind2
              have hx := hc.2.2 r hmem
              simp only [List.headD_cons] at hx
              rw [hx] at hprop
              simp at hprop
          | none =>
              simp only [hfind2, ne_eq, reduceCtorEq, not_false_iff, true_and]
              constructor
              · intro _
                refine ⟨hall, ?_⟩
                intro m hm
                have := List.find?_eq_none.mp hfind2 m hm
                simp only [Bool.not_eq_true', Bool.not_eq_false] at this
                simpa using this
              · intro _
                trivial

/-! ### The broadcast of tie values in `from_parameters` -/

/-- Well-formedness of a tie table as maintained by `add_tie`/discovery:
distinct groups have disjoint member lists and no group's display name occurs
among another group's members (a display may well be a member of its own
group — the fallback naming of `add_tie` produces exactly that). -/
def tiesWF (ties : List (String × List String)) : Prop :=
  List.Pairwise
    (fun a b => (∀ m ∈ a.2, m ∉ b.2) ∧ a.1 ∉ b.2 ∧ b.1 ∉ a.2) ties

theorem asetFold_lookup (ms : List String) (v : Value)
    (d : List (String × Value)) (m : String) :
    alookup (ms.foldl (fun d' x => aset d' x v) d) m
      = if m ∈ ms then some v else alookup d m := by
  induction ms generalizing d with
  | nil => simp
  | cons x tl ih =>
      rw [List.foldl_cons, ih]
      by_cases hm : m ∈ tl
      · simp [hm]
      · by_cases hx : x = m
        · subst hx
          simp [hm, alookup_aset]
        · simp only [List.mem_cons, hm, or_false]
          rw [alookup_aset_ne _ _ _ _ hx]
          by_cases h2 : m = x
          · exact absurd h2.symm hx
          · simp [Ne.symm hx]

/-- Keys that are members of no group are untouched by the broadcast. -/
theorem broadcast_frame (ties : List (String × List String))
    (pars : List (String × Value)) (k : String)
    (hk : ∀ dg ∈ ties, k ∉ dg.2) :
    alookup (broadcastTies ties pars) k = alookup pars k := by
  induction ties generalizing pars with
  | nil => rfl
  | cons hd tl ih =>
      obtain ⟨d, g⟩ := hd
      rw [broadcastTies]
      rw [ih _ (fun dg hdg => hk dg (List.mem_cons_of_mem _ hdg))]
      cases hv : alookup pars d with
      | none => rfl
      | some tv =>
          rw [asetFold_lookup]
          have : k ∉ g := hk (d, g) (by simp)
          simp [this]

/-- Every member of a group whose display name is present in the supplied
dict ends up bound to the display's (original) value. -/
theorem broadcast_member (ties : List (String × List String))
    (pars : List (String × Value)) (hwf : tiesWF ties) :
    ∀ dg ∈ ties, ∀ tv, alookup pars dg.1 = some tv →
      ∀ m ∈ dg.2, alookup (broadcastTies ties pars) m = some tv := by
  induction ties generalizing pars with
  | nil => simp
  | cons hd tl ih =>
      obtain ⟨d, g⟩ := hd
      intro dg hdg tv htv m hm
      rcases List.mem_cons.mp hdg with h1 | h1
      · subst h1
        rw [broadcastTies]
        simp only at htv
        rw [htv]
        have hfr : ∀ dg' ∈ tl, m ∉ dg'.2 := by
          intro dg' hdg'
          exact ((List.pairwise_cons.mp hwf).1 dg' hdg').1 m hm
        rw [broadcast_frame tl _ m hfr, asetFold_lookup]
        simp [hm]
      · rw [broadcastTies]
        have hwf' : tiesWF tl := (List.pairwise_cons.mp hwf).2
        have hd1 : dg.1 ∉ g := ((List.pairwise_cons.mp hwf).1 dg h1).2.2
        cases hv : alookup pars d with
        | none => exact ih _ hwf' dg h1 tv htv m hm
        | some tv0 =>
            refine ih _ hwf' dg h1 tv ?_ m hm
            rw [asetFold_lookup]
            simp [hd1, htv]

/-- `_check_ties` passes exactly when every group passes. -/
theorem checkTies_ok_iff (raw : List (String × Value)) :
    ∀ ties : List (String × List String),
      checkTies raw ties = .ok ()
        ↔ ∀ dg ∈ ties, checkGroup raw dg.1 dg.2 = .ok () := by
  intro ties
  induction ties with
  | nil => simp [checkTies]
  | cons hd tl ih =>
      obtain ⟨d, g⟩ := hd
      rw [checkTies]
      cases hg : checkGroup raw d g with
      | error e =>
          rw [except_bind_error]
          constructor
          · intro h; exact absurd h (by simp)
          · intro h
            have := h (d, g) (by simp)
            rw [hg] at this
            exact absurd this (by simp)
      | ok u =>
          cases u
          rw [except_bind_ok, ih]
          constructor
          · intro h dg hdg
            rcases List.mem_cons.mp hdg with h1 | h1
            · rw [h1]; exact hg
            · exact h dg h1
          · intro h dg hdg
            exact h dg (List.mem_cons_of_mem _ hdg)

/-- C2, counterexample: a composite whose tie table holds an empty group.
Every member of the group (there are none) exists and agrees vacuously, yet
the consistency check raises — the `IndexError` from `raw_names[0]` — so the
claimed "error iff some member absent or disagreeing" equivalence fails. -/
theorem C2_counterexample :
    Scatterers.check_ties ⟨[⟨[("a", Value.num 1)]⟩], [("r", [])]⟩
        = .error (.emptyGroup "r")
    ∧ ∀ dg ∈ [("r", ([] : List String))], ∀ m ∈ dg.2,
        (alookup (Scatterers.raw_parameters ⟨[⟨[("a", Value.num 1)]⟩],
          [("r", [])]⟩) m).isSome = true
        ∧ pyEq ((alookup (Scatterers.raw_parameters ⟨[⟨[("a", Value.num 1)]⟩],
            [("r", [])]⟩) m).getD (.num 0))
            ((alookup (Scatterers.raw_parameters ⟨[⟨[("a", Value.num 1)]⟩],
              [("r", [])]⟩) (dg.2.headD "")).getD (.num 0)) = true := by
  constructor
  · rfl
  · intro dg hdg m hm
    simp only [List.mem_singleton] at hdg
    subst hdg
    simp at hm

/-- C2, amended: the consistency check (run on construction, add, add_tie and
every parameters read) raises an error iff some group is empty (an
`IndexError` from `raw_names[0]`, beyond the claimed conditions), some member
name is absent from the current raw parameters, or some member's value is
not Python-`==` to the group's first member's value; when every group is
nonempty and all members exist and agree it returns successfully, and being a
pure read it modifies nothing. -/
theorem C2_amended (s : Scatterers) :
    s.check_ties = .ok ()
      ↔ ∀ dg ∈ s.ties, dg.2 ≠ []
          ∧ (∀ m ∈ dg.2, (alookup s.raw_parameters m).isSome = true)
          ∧ (∀ m ∈ dg.2,
              pyEq ((alookup s.raw_parameters m).getD (.num 0))
                ((alookup s.raw_parameters (dg.2.headD "")).getD (.num 0)) = true) := by
  rw [Scatterers.check_ties, checkTies_ok_iff]
  constructor
  · intro h dg hdg
    exact (checkGroup_ok_iff _ _ _).mp (h dg hdg)
  · intro h dg hdg
    exact (checkGroup_ok_iff _ _ _).mpr (h dg hdg)

/-! ### Claim C10 -/

/-- C10, counterexample: the rebuilt composite shares the tie dict with
`self` (`type(self)(**self_dict)` receives `self.ties` by reference and
`__init__` stores and mutates it), and its `__init__` re-runs tie discovery.
Supplying one aliased handle for two previously untied slots makes discovery
register a new group, so the shared tie table — `self.ties` included — is no
longer the original empty table: the claim that the composite's own ties
table is left unchanged fails. -/
theorem C10_counterexample :
    Scatterers.from_parameters
        ⟨[⟨[("a", Value.handle 1 5 5)]⟩, ⟨[("b", Value.handle 2 5 5)]⟩], []⟩
        [("0:a", .handle 7 9 9), ("1:b", .handle 7 9 9)] false
      = .ok (⟨[⟨[("a", .handle 7 9 9)]⟩, ⟨[("b", .handle 7 9 9)]⟩],
              [("a", ["0:a", "1:b"])]⟩,
             [("0:a", .handle 7 9 9), ("1:b", .handle 7 9 9)])
    ∧ ([("a", ["0:a", "1:b"])] : List (String × List String)) ≠ [] := by
  exact ⟨rfl, by simp⟩

/-- C10, amended: `from_parameters` does mutate the caller's dictionary as
claimed — after the broadcast, for every tie group whose display name is a
key of the argument, every raw member name is bound to the display's value,
and keys that are members of no group keep their original binding; the
returned dict is exactly this broadcast.  The children of `self` are
untouched, but the ties table is shared with the reconstructed composite,
whose `__init__` re-runs discovery, so `self.ties` afterwards equals the
result's table — which can strictly extend the original (see the
counterexample) and equals it only when discovery finds nothing new. -/
theorem C10_amended (s : Scatterers) (pars : List (String × Value))
    (hwf : tiesWF s.ties) :
    (∀ dg ∈ s.ties, ∀ tv, alookup pars dg.1 = some tv →
        ∀ m ∈ dg.2, alookup (broadcastTies s.ties pars) m = some tv)
    ∧ (∀ k, (∀ dg ∈ s.ties, k ∉ dg.2) →
        alookup (broadcastTies s.ties pars) k = alookup pars k)
    ∧ (∀ ow res, s.from_parameters pars ow = .ok res →
        res.2 = broadcastTies s.ties pars) := by
  refine ⟨broadcast_member s.ties pars hwf,
    fun k hk => broadcast_frame s.ties pars k hk, ?_⟩
  intro ow res h
  rw [Scatterers.from_parameters] at h
  split at h
  · exact absurd h (by simp)
  · split at h
    · cases h
      rfl
    · exact absurd h (by simp)

/-- C10, amended, witness: a two-sphere composite with one declared tie; the
tied value supplied under the display name `'r'` is broadcast to both raw
members in the returned dict. -/
theorem C10_amended_witness :
    alookup (broadcastTies [("r", ["0:r", "1:r"])] [("r", Value.num 2)]) "0:r"
        = some (Value.num 2)
    ∧ alookup (broadcastTies [("r", ["0:r", "1:r"])] [("r", Value.num 2)]) "1:r"
        = some (Value.num 2) := by
  have h := C10_amended ⟨[⟨[("r", Value.num 2)]⟩, ⟨[("r", Value.num 2)]⟩],
    [("r", ["0:r", "1:r"])]⟩ [("r", Value.num 2)] (by simp [tiesWF])
  exact ⟨h.1 ("r", ["0:r", "1:r"]) (by simp) (Value.num 2) (by simp [alookup])
      "0:r" (by simp),
    h.1 ("r", ["0:r", "1:r"]) (by simp) (Value.num 2) (by simp [alookup])
      "1:r" (by simp)⟩

/-! ### Association lists: further lemmas -/

theorem mem_of_alookup_eq_some {β : Type} {l : List (String × β)} {k : String}
    {v : β} (h : alookup l k = some v) : (k, v) ∈ l := by
  induction l with
  | nil => simp at h
  | cons hd tl ih =>
      obtain ⟨k0, v0⟩ := hd
      by_cases h0 : k0 = k
      · subst h0
        simp only [alookup_cons, if_pos rfl] at h
        cases h
        simp
      · simp only [alookup_cons, if_neg h0] at h
        exact List.mem_cons_of_mem _ (ih h)

theorem alookup_isSome_iff_mem {β : Type} {l : List (String × β)} {k : String} :
    (alookup l k).isSome = true ↔ k ∈ l.map Prod.fst := by
  induction l with
  | nil => simp
  | cons hd tl ih =>
      obtain ⟨k0, v0⟩ := hd
      by_cases h0 : k0 = k
      · subst h0; simp
      · simp [h0, ih, Ne.symm h0]

theorem alookup_eq_none_iff {β : Type} {l : List (String × β)} {k : String} :
    alookup l k = none ↔ k ∉ l.map Prod.fst := by
  rw [← alookup_isSome_iff_mem]
  cases alookup l k <;> simp

theorem alookup_append {β : Type} (l1 l2 : List (String × β)) (k : String) :
    alookup (l1 ++ l2) k = (alookup l1 k).or (alookup l2 k) := by
  induction l1 with
  | nil => simp
  | cons hd tl ih =>
      obtain ⟨k0, v0⟩ := hd
      by_cases h0 : k0 = k <;> simp [h0, ih]

theorem alookup_filter {β : Type} (l : List (String × β)) (p : String × β → Bool)
    (k : String) (hp : ∀ v, p (k, v) = true) :
    alookup (l.filter p) k = alookup l k := by
  induction l with
  | nil => simp
  | cons hd tl ih =>
      obtain ⟨k0, v0⟩ := hd
      by_cases h0 : k0 = k
      · subst h0
        simp [List.filter_cons, hp v0]
      · by_cases h1 : p (k0, v0) <;> simp [List.filter_cons, h0, h1, ih]

theorem aset_nodup {β : Type} (l : List (String × β)) (k : String) (v : β)
    (h : (l.map Prod.fst).Nodup) : ((aset l k v).map Prod.fst).Nodup := by
  by_cases hs : (alookup l k).isSome
  · rw [aset_keys, if_pos hs]; exact h
  · rw [aset_keys, if_neg hs, List.nodup_append]
    refine ⟨h, by simp, ?_⟩
    intro a ha hb
    simp only [List.mem_singleton] at hb
    subst hb
    exact hs (alookup_isSome_iff_mem.mpr ha)

theorem mem_aset {β : Type} {l : List (String × β)} {k : String} {v : β}
    {kv : String × β} (h : kv ∈ aset l k v) : kv ∈ l ∨ kv = (k, v) := by
  induction l with
  | nil => exact Or.inr (by simpa using h)
  | cons hd tl ih =>
      obtain ⟨k0, v0⟩ := hd
      by_cases h0 : k0 = k
      · subst h0
        simp only [aset_cons, if_pos rfl] at h
        rcases List.mem_cons.mp h with h1 | h1
        · exact Or.inr h1
        · exact Or.inl (List.mem_cons_of_mem _ h1)
      · simp only [aset_cons, if_neg h0] at h
        rcases List.mem_cons.mp h with h1 | h1
        · exact Or.inl (h1 ▸ List.mem_cons_self _ _)
        · rcases ih h1 with h2 | h2
          · exact Or.inl (List.mem_cons_of_mem _ h2)
          · exact Or.inr h2

theorem aset_keys_subset {β : Type} {l : List (String × β)} {k k' : String}
    {v : β} (h : k' ∈ (aset l k v).map Prod.fst) :
    k' ∈ l.map Prod.fst ∨ k' = k := by
  by_cases hs : (alookup l k).isSome
  · rw [aset_keys, if_pos hs] at h
    exact Or.inl h
  · rw [aset_keys, if_neg hs] at h
    rcases List.mem_append.mp h with h1 | h1
    · exact Or.inl h1
    · exact Or.inr (by simpa using h1)

theorem asetFold_keys (ms : List String) (v : Value)
    (d : List (String × Value)) :
    ∀ k ∈ ((ms.foldl (fun d' x => aset d' x v) d).map Prod.fst),
      k ∈ d.map Prod.fst ∨ k ∈ ms := by
  induction ms generalizing d with
  | nil => intro k hk; exact Or.inl hk
  | cons x tl ih =>
      intro k hk
      rw [List.foldl_cons] at hk
      rcases ih (aset d x v) k hk with h | h
      · rcases aset_keys_subset h with h1 | h1
        · exact Or.inl h1
        · exact Or.inr (h1 ▸ List.mem_cons_self _ _)
      · exact Or.inr (List.mem_cons_of_mem _ h)

theorem asetFold_nodup (ms : List String) (v : Value)
    (d : List (String × Value)) (h : (d.map Prod.fst).Nodup) :
    (((ms.foldl (fun d' x => aset d' x v) d)).map Prod.fst).Nodup := by
  induction ms generalizing d with
  | nil => exact h
  | cons x tl ih => exact ih _ (aset_nodup d x v h)

theorem broadcast_keys (ties : List (String × List String))
    (pars : List (String × Value)) :
    ∀ k ∈ (broadcastTies ties pars).map Prod.fst,
      k ∈ pars.map Prod.fst ∨ k ∈ allTies ties := by
  induction ties generalizing pars with
  | nil => intro k hk; exact Or.inl hk
  | cons hd tl ih =>
      obtain ⟨d, g⟩ := hd
      intro k hk
      rw [broadcastTies] at hk
      cases hv : alookup pars d with
      | none =>
          rw [hv] at hk
          rcases ih pars k hk with h | h
          · exact Or.inl h
          · exact Or.inr (by simp [allTies, List.mem_flatMap] at h ⊢; tauto)
      | some tv =>
          rw [hv] at hk
          rcases ih _ k hk with h | h
          · rcases asetFold_keys g tv pars k h with h2 | h2
            · exact Or.inl h2
            · exact Or.inr (by
                simp only [allTies, List.mem_flatMap]
                exact ⟨(d, g), by simp, h2⟩)
          · exact Or.inr (by simp [allTies, List.mem_flatMap] at h ⊢; tauto)

theorem broadcast_nodup (ties : List (String × List String))
    (pars : List (String × Value)) (h : (pars.map Prod.fst).Nodup) :
    ((broadcastTies ties pars).map Prod.fst).Nodup := by
  induction ties generalizing pars with
  | nil => exact h
  | cons hd tl ih =>
      obtain ⟨d, g⟩ := hd
      rw [broadcastTies]
      cases hv : alookup pars d with
      | none => exact ih pars h
      | some tv => exact ih _ (asetFold_nodup g tv pars h)

theorem mem_allTies {ties : List (String × List String)} {k : String} :
    k ∈ allTies ties ↔ ∃ dg ∈ ties, k ∈ dg.2 := by
  simp [allTies, List.mem_flatMap]

/-! ### tieOverlay lemmas -/

@[simp] theorem tieOverlay_nil (raw : List (String × Value))
    (base : List (String × Value)) : tieOverlay raw [] base = base := rfl

@[simp] theorem tieOverlay_cons (raw : List (String × Value)) (d : String)
    (g : List String) (tl : List (String × List String))
    (base : List (String × Value)) :
    tieOverlay raw ((d, g) :: tl) base
      = tieOverlay raw tl (aset base d ((alookup raw (g.headD "")).getD (.num 0))) := rfl

theorem tieOverlay_frame (raw : List (String × Value))
    (ties : List (String × List String)) (base : List (String × Value))
    (k : String) (hk : k ∉ ties.map Prod.fst) :
    alookup (tieOverlay raw ties base) k = alookup base k := by
  induction ties generalizing base with
  | nil => rfl
  | cons hd tl ih =>
      obtain ⟨d, g⟩ := hd
      rw [tieOverlay_cons, ih _ (fun hc => hk (List.mem_cons_of_mem _ hc))]
      exact alookup_aset_ne _ _ _ _ (fun hc => hk (hc ▸ by simp))

theorem tieOverlay_lookup (raw : List (String × Value))
    (ties : List (String × List String)) (base : List (String × Value))
    (hnd : (ties.map Prod.fst).Nodup) :
    ∀ dg ∈ ties, alookup (tieOverlay raw ties base) dg.1
      = some ((alookup raw (dg.2.headD "")).getD (.num 0)) := by
  induction ties generalizing base with
  | nil => simp
  | cons hd tl ih =>
      obtain ⟨d, g⟩ := hd
      intro dg hdg
      rcases List.mem_cons.mp hdg with h1 | h1
      · subst h1
        rw [tieOverlay_cons]
        have hd1 : d ∉ tl.map Prod.fst := by
          simpa using (List.nodup_cons.mp hnd).1
        rw [tieOverlay_frame _ _ _ _ hd1]
        exact alookup_aset _ _ _
      · rw [tieOverlay_cons]
        exact ih _ (List.nodup_cons.mp hnd).2 dg h1

theorem tieOverlay_keys (raw : List (String × Value))
    (ties : List (String × List String)) (base : List (String × Value)) :
    ∀ k ∈ (tieOverlay raw ties base).map Prod.fst,
      k ∈ base.map Prod.fst ∨ k ∈ ties.map Prod.fst := by
  induction ties generalizing base with
  | nil => intro k hk; exact Or.inl hk
  | cons hd tl ih =>
      obtain ⟨d, g⟩ := hd
      intro k hk
      rw [tieOverlay_cons] at hk
      rcases ih _ k hk with h | h
      · rcases aset_keys_subset h with h1 | h1
        · exact Or.inl h1
        · exact Or.inr (h1 ▸ by simp)
      · exact Or.inr (List.mem_cons_of_mem _ h)

theorem tieOverlay_nodup (raw : List (String × Value))
    (ties : List (String × List String)) (base : List (String × Value))
    (h : (base.map Prod.fst).Nodup) :
    ((tieOverlay raw ties base).map Prod.fst).Nodup := by
  induction ties generalizing base with
  | nil => exact h
  | cons hd tl ih =>
      obtain ⟨d, g⟩ := hd
      rw [tieOverlay_cons]
      exact ih _ (aset_nodup _ _ _ h)

/-! ### rawFrom lemmas -/

theorem alookup_map_pfx (i : ℕ) (l : List (String × Value)) (nm : String) :
    alookup (l.map (fun kv => (pfx i kv.1, kv.2))) (pfx i nm) = alookup l nm := by
  induction l with
  | nil => simp
  | cons hd tl ih =>
      obtain ⟨k0, v0⟩ := hd
      by_cases h0 : k0 = nm
      · subst h0; simp
      · have : pfx i k0 ≠ pfx i nm := fun hc => h0 (pfx_inj hc).2
        simp [this, h0, ih]

theorem alookup_map_pfx_ne {i j : ℕ} (l : List (String × Value)) (nm : String)
    (h : i ≠ j) :
    alookup (l.map (fun kv => (pfx i kv.1, kv.2))) (pfx j nm) = none := by
  induction l with
  | nil => simp
  | cons hd tl ih =>
      have : pfx i hd.1 ≠ pfx j nm := fun hc => h (pfx_inj hc).1
      simpa [this] using ih

theorem rawFrom_lookup_lt {i i' : ℕ} (l : List Prim) (nm : String) (h : i < i') :
    alookup (rawFrom i' l) (pfx i nm) = none := by
  induction l generalizing i' with
  | nil => simp [rawFrom]
  | cons p rest ih =>
      rw [rawFrom, alookup_append,
        alookup_map_pfx_ne _ _ (by omega : i' ≠ i),
        ih (by omega : i < i' + 1)]
      rfl

theorem rawFrom_lookup (l : List Prim) :
    ∀ (i j : ℕ) (hj : j < l.length) (nm : String),
      alookup (rawFrom i l) (pfx (i + j) nm)
        = alookup (l.get ⟨j, hj⟩).params nm := by
  induction l with
  | nil => intro i j hj; simp at hj
  | cons p rest ih =>
      intro i j hj nm
      cases j with
      | zero =>
          rw [Nat.add_zero, rawFrom, alookup_append, alookup_map_pfx,
            rawFrom_lookup_lt rest nm (by omega)]
          simp [List.get]
      | succ j' =>
          have hne : i ≠ i + (j' + 1) := by omega
          rw [rawFrom, alookup_append, alookup_map_pfx_ne _ _ hne]
          have : i + (j' + 1) = (i + 1) + j' := by omega
          rw [this, ih (i + 1) j' (by simpa using hj) nm]
          simp [List.get]

theorem rawFrom_mem {l : List Prim} :
    ∀ {i : ℕ} {kv : String × Value}, kv ∈ rawFrom i l →
      ∃ j, ∃ hj : j < l.length, ∃ nm, kv.1 = pfx (i + j) nm
        ∧ (nm, kv.2) ∈ (l.get ⟨j, hj⟩).params := by
  induction l with
  | nil => intro i kv h; simp [rawFrom] at h
  | cons p rest ih =>
      intro i kv h
      rw [rawFrom] at h
      rcases List.mem_append.mp h with h1 | h1
      · rcases List.mem_map.mp h1 with ⟨⟨nm, v⟩, hmem, heq⟩
        subst heq
        refine ⟨0, by simp, nm, by simp, by simpa [List.get] using hmem⟩
      · rcases ih h1 with ⟨j, hj, nm, hkey, hmem⟩
        refine ⟨j + 1, by simpa using hj, nm, ?_, ?_⟩
        · rw [hkey]; congr 1; omega
        · simpa [List.get] using hmem

theorem rawFrom_nodup (l : List Prim)
    (hnd : ∀ p ∈ l, (p.params.map Prod.fst).Nodup) :
    ∀ i : ℕ, ((rawFrom i l).map Prod.fst).Nodup := by
  induction l with
  | nil => intro i; simp [rawFrom]
  | cons p rest ih =>
      intro i
      rw [rawFrom, List.map_append, List.nodup_append]
      refine ⟨?_, ih (fun q hq => hnd q (List.mem_cons_of_mem _ hq)) (i + 1), ?_⟩
      · rw [List.map_map]
        have hcomp : (Prod.fst ∘ fun kv : String × Value => (pfx i kv.1, kv.2))
            = (fun nm => pfx i nm) ∘ Prod.fst := rfl
        rw [hcomp, ← List.map_map]
        exact List.Nodup.map (fun a b hab => (pfx_inj hab).2) (hnd p (by simp))
      · intro a ha hb
        rw [List.map_map] at ha
        rcases List.mem_map.mp ha with ⟨⟨nm, v⟩, _, heq⟩
        rcases List.mem_map.mp hb with ⟨kv, hkv, heq2⟩
        rcases rawFrom_mem hkv with ⟨j, hj, nm2, hkey, _⟩
        have h3 : pfx i nm = a := heq
        have h4 : a = pfx ((i + 1) + j) nm2 := by rw [← heq2, hkey]
        exact absurd (pfx_inj (h3.trans h4)).1 (by omega)

theorem rawFrom_keys_colon {l : List Prim} {i : ℕ} {k : String}
    (h : k ∈ (rawFrom i l).map Prod.fst) : ':' ∈ k.toList := by
  rcases List.mem_map.mp h with ⟨kv, hkv, heq⟩
  rcases rawFrom_mem hkv with ⟨j, hj, nm, hkey, _⟩
  rw [← heq, hkey]
  exact pfx_has_colon _ _

/-! ### The partition loop of from_parameters -/

theorem dropWhile_all {p : Char → Bool} {l : List Char}
    (h : ∀ c ∈ l, p c = true) : l.dropWhile p = [] := by
  induction l with
  | nil => rfl
  | cons c tl ih =>
      rw [List.dropWhile_cons, if_pos (h c (by simp))]
      exact ih (fun c' hc' => h c' (by simp [hc']))

theorem splitFirst_no_colon {k : String} (h : ':' ∉ k.toList) :
    splitFirst k = [k] := by
  rw [splitFirst]
  have : k.toList.dropWhile (fun c => decide (c ≠ ':')) = [] := by
    refine dropWhile_all ?_
    intro c hc
    simp only [decide_eq_true_eq]
    intro hcc
    exact h (hcc ▸ hc)
  rw [this]

/-- Whether `collected[int(parts[0])][parts[1]] = val` can process a key: the
key has no colon (it is skipped), or it is a canonical namespaced key with a
valid child index. -/
def routeOK (n : ℕ) (k : String) : Prop :=
  (':' ∉ k.toList) ∨ ∃ i, i < n ∧ ∃ nm, k = pfx i nm

theorem collectStep_skip {n : ℕ} {coll : List (List (String × Value))}
    {kv : String × Value} (h : ':' ∉ kv.1.toList) :
    collectStep n coll kv = .ok coll := by
  rw [collectStep, splitFirst_no_colon h]

theorem collectStep_route {n : ℕ} {coll : List (List (String × Value))}
    {i : ℕ} {nm : String} {v : Value} (hi : i < n) :
    collectStep n coll (pfx i nm, v)
      = .ok (coll.set i (aset (coll.getD i []) nm v)) := by
  rw [collectStep]
  simp only [splitFirst_pfx, parseNat_repr]
  rw [if_pos hi]

theorem list_getD_set_self {α : Type} (l : List α) (i : ℕ) (x d : α)
    (h : i < l.length) : (l.set i x).getD i d = x := by
  rw [List.getD_eq_getElem?_getD, List.getElem?_set_self]
  · simp
  · exact h

theorem list_getD_set_ne {α : Type} (l : List α) (i j : ℕ) (x d : α)
    (h : i ≠ j) : (l.set i x).getD j d = l.getD j d := by
  rw [List.getD_eq_getElem?_getD, List.getElem?_set_ne h,
    ← List.getD_eq_getElem?_getD]

theorem collect_fold (n : ℕ) :
    ∀ (entries : List (String × Value)) (coll0 : List (List (String × Value))),
      (∀ kv ∈ entries, routeOK n kv.1) →
      ((entries.map Prod.fst).Nodup) →
      coll0.length = n →
      ∃ coll, entries.foldlM (collectStep n) coll0 = .ok coll
        ∧ coll.length = n
        ∧ ∀ i, i < n → ∀ nm : String,
            alookup (coll.getD i []) nm
              = (alookup entries (pfx i nm)).or (alookup (coll0.getD i []) nm) := by
  intro entries
  induction entries with
  | nil =>
      intro coll0 _ _ hlen
      exact ⟨coll0, rfl, hlen, by simp⟩
  | cons kv rest ih =>
      intro coll0 hroute hnd hlen
      obtain ⟨k, v⟩ := kv
      rw [List.map_cons, List.nodup_cons] at hnd
      rcases hroute (k, v) (by simp) with hk | ⟨j, hj, nm0, hk⟩
      · -- no colon: skipped
        rcases ih coll0 (fun kv' h' => hroute kv' (List.mem_cons_of_mem _ h'))
            hnd.2 hlen with ⟨coll, hfold, hclen, hchar⟩
        refine ⟨coll, ?_, hclen, ?_⟩
        · rw [List.foldlM_cons, collectStep_skip hk, except_bind_ok]
          exact hfold
        · intro i hi nm
          rw [hchar i hi nm]
          have hne : k ≠ pfx i nm := by
            intro hc
            exact hk (hc ▸ pfx_has_colon i nm)
          rw [alookup_cons, if_neg hne]
      · -- canonical namespaced key
        subst hk
        have hlen' : (coll0.set j (aset (coll0.getD j []) nm0 v)).length = n := by
          simpa using hlen
        rcases ih (coll0.set j (aset (coll0.getD j []) nm0 v))
            (fun kv' h' => hroute kv' (List.mem_cons_of_mem _ h'))
            hnd.2 hlen' with ⟨coll, hfold, hclen, hchar⟩
        refine ⟨coll, ?_, hclen, ?_⟩
        · rw [List.foldlM_cons, collectStep_route hj, except_bind_ok]
          exact hfold
        · intro i hi nm
          rw [hchar i hi nm]
          by_cases he : pfx i nm = pfx j nm0
          · have hij := pfx_inj he
            obtain ⟨rfl, rfl⟩ := hij
            have hnotrest : alookup rest (pfx i nm) = none := by
              rw [alookup_eq_none_iff]
              exact hnd.1
            rw [alookup_cons, if_pos rfl, hnotrest]
            simp only [Option.none_or]
            rw [list_getD_set_self _ _ _ _ (by omega)]
            rw [alookup_aset]
            simp
          · rw [alookup_cons, if_neg (Ne.symm he)]
            by_cases hij : i = j
            · subst hij
              have hnm : nm ≠ nm0 := fun hc => he (by rw [hc])
              rw [list_getD_set_self _ _ _ _ (by omega),
                alookup_aset_ne _ _ _ _ (Ne.symm hnm)]
            · rw [list_getD_set_ne _ _ _ _ _ (Ne.symm hij)]

/-! ### Discovery finds nothing new: the saturated case -/

theorem findTiesGo_noop (rawList : List (String × Value)) :
    ∀ (entries : List (String × Value)) (s : Scatterers),
      (∀ kv ∈ entries, kv.1 ∈ allTies s.ties
        ∨ ∀ kv' ∈ rawList, kv'.1 ≠ kv.1 → ¬ tieMatch kv.2 kv'.2 = true) →
      findTiesGo rawList entries s = .ok s := by
  intro entries
  induction entries with
  | nil => intro s _; rfl
  | cons kv rest ih =>
      intro s h
      obtain ⟨k, v⟩ := kv
      rw [findTiesGo]
      by_cases hmem : k ∈ allTies s.ties
      · rw [if_pos hmem]
        exact ih s (fun kv' h' => h kv' (List.mem_cons_of_mem _ h'))
      · rw [if_neg hmem]
        rcases h (k, v) (by simp) with h1 | h1
        · exact absurd h1 hmem
        · have hnone : (dictWithout rawList k).find?
              (fun rp => tieMatch v rp.2) = none := by
            rw [List.find?_eq_none]
            intro rp hrp
            rw [dictWithout] at hrp
            have hmem2 := List.mem_of_mem_filter hrp
            have hne : rp.1 ≠ k := by
              have := List.of_mem_filter hrp
              simpa using this
            simpa using h1 rp hmem2 hne
          rw [hnone]
          exact ih s (fun kv' h' => h kv' (List.mem_cons_of_mem _ h'))

/-! ### Small odds and ends for the round-trip proof -/

theorem alookup_eq_some_of_mem_nodup {β : Type} {l : List (String × β)}
    {k : String} {v : β} (hnd : (l.map Prod.fst).Nodup) (h : (k, v) ∈ l) :
    alookup l k = some v := by
  induction l with
  | nil => simp at h
  | cons hd tl ih =>
      obtain ⟨k0, v0⟩ := hd
      rw [List.map_cons, List.nodup_cons] at hnd
      rcases List.mem_cons.mp h with h1 | h1
      · cases h1
        simp
      · have hne : k0 ≠ k := by
          intro hc
          subst hc
          exact hnd.1 (List.mem_map.mpr ⟨(k0, v), h1, rfl⟩)
        rw [alookup_cons, if_neg hne]
        exact ih hnd.2 h1

theorem alookup_map_entry {β : Type} (l : List (String × β))
    (F : String × β → β) (k : String) :
    alookup (l.map (fun kv => (kv.1, F kv))) k
      = (alookup l k).map (fun v => F (k, v)) := by
  induction l with
  | nil => simp
  | cons hd tl ih =>
      obtain ⟨k0, v0⟩ := hd
      by_cases h0 : k0 = k
      · subst h0; simp
      · simp [h0, ih]

theorem map_fst_map_entry {β : Type} (l : List (String × β))
    (F : String × β → β) :
    (l.map (fun kv => (kv.1, F kv))).map Prod.fst = l.map Prod.fst := by
  induction l with
  | nil => rfl
  | cons hd tl ih => simp [ih]

theorem filter_map_entry {β : Type} (l : List (String × β))
    (F : String × β → β) (p : String → Bool) :
    (l.map (fun kv => (kv.1, F kv))).filter (fun kv => p kv.1)
      = (l.filter (fun kv => p kv.1)).map (fun kv => (kv.1, F kv)) := by
  induction l with
  | nil => rfl
  | cons hd tl ih =>
      obtain ⟨k0, v0⟩ := hd
      by_cases h0 : p k0 <;> simp [List.filter_cons, h0, ih]

theorem headD_mem {g : List String} (h : g ≠ []) (d : String) : g.headD d ∈ g := by
  cases g with
  | nil => exact absurd rfl h
  | cons a tl => simp

theorem replicate_getD_nil (n i : ℕ) :
    (List.replicate n ([] : List (String × Value))).getD i [] = [] := by
  rw [List.getD_eq_getElem?_getD, List.getElem?_replicate]
  by_cases h : i < n <;> simp [h]

theorem nodup_flatMap_pairwise {α β : Type} {l : List α} {f : α → List β}
    (h : (l.flatMap f).Nodup) :
    l.Pairwise (fun a b => ∀ x ∈ f a, x ∉ f b) := by
  induction l with
  | nil => exact List.Pairwise.nil
  | cons a tl ih =>
      rw [List.flatMap_cons, List.nodup_append] at h
      refine List.Pairwise.cons ?_ (ih h.2.1)
      intro b hb x hx hxb
      exact h.2.2 hx (List.mem_flatMap.mpr ⟨b, hb, hxb⟩)

theorem tieOverlay_congr (raw1 raw2 : List (String × Value))
    (ties : List (String × List String)) (base : List (String × Value))
    (h : ∀ dg ∈ ties, alookup raw1 (dg.2.headD "") = alookup raw2 (dg.2.headD "")) :
    tieOverlay raw1 ties base = tieOverlay raw2 ties base := by
  induction ties generalizing base with
  | nil => rfl
  | cons hd tl ih =>
      obtain ⟨d, g⟩ := hd
      rw [tieOverlay_cons, tieOverlay_cons, h (d, g) (by simp)]
      exact ih _ (fun dg hdg => h dg (List.mem_cons_of_mem _ hdg))

/-- The value transformation `from_parameters` applies to one raw entry, with
`overwrite=False`: a plain number is kept (the supplied value is ignored), a
prior takes the supplied value, or its guess if none was supplied. -/
def transfVal (np : List (String × Value)) (kv : String × Value) : Value :=
  match kv.2 with
  | .num q => .num q
  | .handle _ _ g =>
      match alookup np kv.1 with
      | some w => w
      | none => .num g

@[simp] theorem transfVal_num (np : List (String × Value)) (k : String) (q : ℚ) :
    transfVal np (k, .num q) = .num q := rfl

theorem transfVal_of_lookup (np : List (String × Value)) (k : String)
    (hid : ℕ) (sv gv : ℚ) (w : Value) (h : alookup np k = some w) :
    transfVal np (k, .handle hid sv gv) = w := by
  simp only [transfVal, h]

theorem newRaw_eq (np : List (String × Value)) :
    ∀ (scats : List Prim) (coll : List (List (String × Value))) (i : ℕ),
      scats.length = coll.length →
      (∀ j, (hj : j < scats.length) → ∀ nm v,
          (nm, v) ∈ (scats.get ⟨j, hj⟩).params →
          alookup (coll.getD j []) nm = alookup np (pfx (i + j) nm)) →
      rawFrom i ((scats.zip coll).map (fun pc => pc.1.from_parameters pc.2 false))
        = (rawFrom i scats).map (fun kv => (kv.1, transfVal np kv)) := by
  intro scats
  induction scats with
  | nil => intro coll i _ _; simp [rawFrom]
  | cons p rest ih =>
      intro coll i hlen hcoll
      cases coll with
      | nil => simp at hlen
      | cons c crest =>
          rw [List.zip_cons_cons, List.map_cons, rawFrom, rawFrom, List.map_append]
          congr 1
          · -- the first child's block
            rw [Prim.from_parameters]
            rw [List.map_map, List.map_map]
            refine List.map_congr_left ?_
            intro ⟨nm, v⟩ hmem
            have hc := hcoll 0 (by simp) nm v (by simpa [List.get] using hmem)
            simp only [List.getD_cons_zero, Nat.add_zero] at hc
            simp only [Function.comp_apply]
            cases v with
            | num q => cases hv : alookup c nm <;> simp [transfVal, hv]
            | handle hid sv gv =>
                cases hv : alookup c nm with
                | none => simp [transfVal, hv, hv ▸ hc.symm, ← hc, hv]
                | some w => simp [transfVal, hv, ← hc, hv]
          · -- the remaining children
            refine ih crest (i + 1) (by simpa using hlen) ?_
            intro j hj nm v hmem
            have hc := hcoll (j + 1) (by simpa using hj) nm v
              (by simpa [List.get] using hmem)
            simp only [List.getD_cons_succ] at hc
            have harith : i + (j + 1) = (i + 1) + j := by omega
            rw [hc, harith]

/-! ### Claim C1: the round-trip -/

/-- C1, counterexample: a composite the constructor happily accepts — two
children holding equal plain numbers with a user tie table whose group is
named `"2:a"` — passes the consistency check and discovery, yet
`from_parameters(parameters)` raises (`collected[2]` is an `IndexError`: the
display name is partitioned as child index 2, which does not exist) instead
of reproducing the view, so the round-trip fails for a consistent tie
configuration. -/
theorem C1_counterexample :
    mkScatterers [⟨[("a", Value.num 1)]⟩, ⟨[("a", Value.num 1)]⟩]
        [("2:a", ["0:a", "1:a"])]
      = .ok ⟨[⟨[("a", Value.num 1)]⟩, ⟨[("a", Value.num 1)]⟩],
             [("2:a", ["0:a", "1:a"])]⟩
    ∧ Scatterers.parameters ⟨[⟨[("a", Value.num 1)]⟩, ⟨[("a", Value.num 1)]⟩],
        [("2:a", ["0:a", "1:a"])]⟩ = .ok [("2:a", Value.num 1)]
    ∧ Scatterers.from_parameters ⟨[⟨[("a", Value.num 1)]⟩,
        ⟨[("a", Value.num 1)]⟩], [("2:a", ["0:a", "1:a"])]⟩
        [("2:a", Value.num 1)] false
      = .error (.badKey "2:a") := by
  exact ⟨rfl, rfl, rfl⟩

/-- C1, amended: the round-trip holds for every composite whose state is
well-formed in the sense the engine itself maintains: per-child parameter
names unique, the consistency check passes, discovery is saturated (no two
raw entries share an untied handle), tie groups pairwise disjoint with
distinct display names, and every display name either contains no colon or
is itself one of its group's raw member names (the two shapes `add_tie`
produces).  Then `parameters` succeeds, `from_parameters` on that view
succeeds, and the rebuilt composite's `parameters` is literally the same
view. -/
theorem C1_amended (s : Scatterers)
    (hnd : ∀ p ∈ s.scatterers, (p.params.map Prod.fst).Nodup)
    (hck : s.check_ties = .ok ())
    (hsat : ∀ kv ∈ s.raw_parameters, kv.1 ∈ allTies s.ties
        ∨ ∀ kv' ∈ s.raw_parameters, kv'.1 ≠ kv.1 → ¬ tieMatch kv.2 kv'.2 = true)
    (hdisp : ∀ dg ∈ s.ties, (':' ∉ dg.1.toList) ∨ dg.1 ∈ dg.2)
    (hat : (allTies s.ties).Nodup)
    (hkeys : (s.ties.map Prod.fst).Nodup) :
    ∃ view c' np, s.parameters = .ok view
      ∧ s.from_parameters view false = .ok (c', np)
      ∧ c'.parameters = .ok view := by
  have h_raw_nd : (s.raw_parameters.map Prod.fst).Nodup :=
    rawFrom_nodup s.scatterers hnd 0
  have h_groups : ∀ dg ∈ s.ties, dg.2 ≠ []
      ∧ (∀ m ∈ dg.2, (alookup s.raw_parameters m).isSome = true)
      ∧ (∀ m ∈ dg.2, pyEq ((alookup s.raw_parameters m).getD (.num 0))
          ((alookup s.raw_parameters (dg.2.headD "")).getD (.num 0)) = true) := by
    intro dg hdg
    exact (checkGroup_ok_iff _ _ _).mp ((checkTies_ok_iff _ _).mp hck dg hdg)
  have h_members_raw : ∀ dg ∈ s.ties, ∀ m ∈ dg.2,
      m ∈ s.raw_parameters.map Prod.fst :=
    fun dg hdg m hm => alookup_isSome_iff_mem.mp ((h_groups dg hdg).2.1 m hm)
  have h_at_raw : ∀ k ∈ allTies s.ties, k ∈ s.raw_parameters.map Prod.fst := by
    intro k hk
    rcases mem_allTies.mp hk with ⟨dg, hdg, hm⟩
    exact h_members_raw dg hdg k hm
  have h_untied_not_disp : ∀ k, ':' ∈ k.toList → k ∉ allTies s.ties →
      k ∉ s.ties.map Prod.fst := by
    intro k hcolon hk hmem
    rcases List.mem_map.mp hmem with ⟨dg, hdg, heq⟩
    rcases hdisp dg hdg with hnc | hin
    · exact hnc (heq ▸ hcolon)
    · exact hk (heq ▸ mem_allTies.mpr ⟨dg, hdg, hin⟩)
  have h_wf : tiesWF s.ties := by
    have hpw := nodup_flatMap_pairwise (f := Prod.snd) hat
    refine List.Pairwise.imp_of_mem ?_ hpw
    intro a b ha hb hdisj
    refine ⟨hdisj, ?_, ?_⟩
    · intro hmem
      rcases hdisp a ha with hnc | hin
      · exact hnc (rawFrom_keys_colon (h_members_raw b hb a.1 hmem))
      · exact hdisj a.1 hin hmem
    · intro hmem
      rcases hdisp b hb with hnc | hin
      · exact hnc (rawFrom_keys_colon (h_members_raw a ha b.1 hmem))
      · exact hdisj b.1 hmem hin
  have h_base_nd : ((s.raw_parameters.filter
      (fun kv => kv.1 ∉ allTies s.ties)).map Prod.fst).Nodup :=
    ((List.filter_sublist _).map Prod.fst).nodup h_raw_nd
  have hck2 : checkTies s.raw_parameters s.ties = .ok () := hck
  have h_view : s.parameters = .ok (tieOverlay s.raw_parameters s.ties
      (s.raw_parameters.filter (fun kv => kv.1 ∉ allTies s.ties))) := by
    simp only [Scatterers.parameters, hck2]
  have h_view_disp : ∀ dg ∈ s.ties,
      alookup (tieOverlay s.raw_parameters s.ties
        (s.raw_parameters.filter (fun kv => kv.1 ∉ allTies s.ties))) dg.1
      = some ((alookup s.raw_parameters (dg.2.headD "")).getD (.num 0)) :=
    tieOverlay_lookup _ _ _ hkeys
  have h_view_untied : ∀ k, ':' ∈ k.toList → k ∉ allTies s.ties →
      alookup (tieOverlay s.raw_parameters s.ties
        (s.raw_parameters.filter (fun kv => kv.1 ∉ allTies s.ties))) k
      = alookup s.raw_parameters k := by
    intro k hc hk
    rw [tieOverlay_frame _ _ _ _ (h_untied_not_disp k hc hk)]
    exact alookup_filter _ _ _ (fun v => by simpa using hk)
  have h_raw_some : ∀ kv ∈ s.raw_parameters,
      alookup s.raw_parameters kv.1 = some kv.2 := by
    intro kv h
    exact alookup_eq_some_of_mem_nodup h_raw_nd (by simpa using h)
  have h_np_member : ∀ dg ∈ s.ties, ∀ m ∈ dg.2,
      alookup (broadcastTies s.ties (tieOverlay s.raw_parameters s.ties
        (s.raw_parameters.filter (fun kv => kv.1 ∉ allTies s.ties)))) m
      = some ((alookup s.raw_parameters (dg.2.headD "")).getD (.num 0)) := by
    intro dg hdg m hm
    exact broadcast_member s.ties _ h_wf dg hdg _ (h_view_disp dg hdg) m hm
  have h_np_untied : ∀ k, ':' ∈ k.toList → k ∉ allTies s.ties →
      alookup (broadcastTies s.ties (tieOverlay s.raw_parameters s.ties
        (s.raw_parameters.filter (fun kv => kv.1 ∉ allTies s.ties)))) k
      = alookup s.raw_parameters k := by
    intro k hc hk
    rw [broadcast_frame s.ties _ k
      (fun dg hdg hmem => hk (mem_allTies.mpr ⟨dg, hdg, hmem⟩))]
    exact h_view_untied k hc hk
  have h_raw_route : ∀ k ∈ s.raw_parameters.map Prod.fst,
      routeOK s.scatterers.length k := by
    intro k hk
    rcases List.mem_map.mp hk with ⟨kv, hmem, heq⟩
    rcases rawFrom_mem hmem with ⟨j, hj, nm, hkey, _⟩
    right
    exact ⟨j, hj, nm, by rw [← heq, hkey, Nat.zero_add]⟩
  have h_np_route : ∀ kv ∈ broadcastTies s.ties (tieOverlay s.raw_parameters
      s.ties (s.raw_parameters.filter (fun kv => kv.1 ∉ allTies s.ties))),
      routeOK s.scatterers.length kv.1 := by
    intro kv hmem
    have hk : kv.1 ∈ (broadcastTies s.ties (tieOverlay s.raw_parameters s.ties
        (s.raw_parameters.filter (fun kv => kv.1 ∉ allTies s.ties)))).map
        Prod.fst := List.mem_map.mpr ⟨kv, hmem, rfl⟩
    rcases broadcast_keys _ _ _ hk with h1 | h1
    · rcases tieOverlay_keys _ _ _ _ h1 with h2 | h2
      · have h3 : kv.1 ∈ s.raw_parameters.map Prod.fst := by
          rcases List.mem_map.mp h2 with ⟨kv', hkv', heq⟩
          exact List.mem_map.mpr ⟨kv', List.mem_of_mem_filter hkv', heq⟩
        exact h_raw_route _ h3
      · rcases List.mem_map.mp h2 with ⟨dg, hdg, heq⟩
        rcases hdisp dg hdg with hnc | hin
        · exact Or.inl (heq ▸ hnc)
        · exact h_raw_route _ (heq ▸ h_members_raw dg hdg _ hin)
    · exact h_raw_route _ (h_at_raw _ h1)
  have h_np_nd : ((broadcastTies s.ties (tieOverlay s.raw_parameters s.ties
      (s.raw_parameters.filter (fun kv => kv.1 ∉ allTies s.ties)))).map
      Prod.fst).Nodup :=
    broadcast_nodup _ _ (tieOverlay_nodup _ _ _ h_base_nd)
  rcases collect_fold s.scatterers.length _
      (List.replicate s.scatterers.length []) h_np_route h_np_nd
      (by simp) with ⟨coll, hfold, hclen, hchar⟩
  have h_coll_lookup : ∀ j, j < s.scatterers.length → ∀ nm : String,
      alookup (coll.getD j []) nm
      = alookup (broadcastTies s.ties (tieOverlay s.raw_parameters s.ties
          (s.raw_parameters.filter (fun kv => kv.1 ∉ allTies s.ties))))
          (pfx j nm) := by
    intro j hj nm
    rw [hchar j hj nm, replicate_getD_nil]
    simp
  have h_newraw : rawFrom 0 ((s.scatterers.zip coll).map
        (fun pc => pc.1.from_parameters pc.2 false))
      = s.raw_parameters.map (fun kv => (kv.1, transfVal
          (broadcastTies s.ties (tieOverlay s.raw_parameters s.ties
            (s.raw_parameters.filter (fun kv => kv.1 ∉ allTies s.ties)))) kv)) := by
    refine newRaw_eq _ s.scatterers coll 0 hclen.symm ?_
    intro j hj nm v _
    rw [Nat.zero_add]
    exact h_coll_lookup j hj nm
  have h_transf_untied : ∀ kv ∈ s.raw_parameters, kv.1 ∉ allTies s.ties →
      transfVal (broadcastTies s.ties (tieOverlay s.raw_parameters s.ties
        (s.raw_parameters.filter (fun kv => kv.1 ∉ allTies s.ties)))) kv
      = kv.2 := by
    intro kv hmem hk
    obtain ⟨k, v⟩ := kv
    have hcolon : ':' ∈ k.toList :=
      rawFrom_keys_colon (List.mem_map.mpr ⟨(k, v), hmem, rfl⟩)
    cases v with
    | num q => rfl
    | handle hid sv gv =>
        have h1 : alookup (broadcastTies s.ties (tieOverlay s.raw_parameters
            s.ties (s.raw_parameters.filter (fun kv => kv.1 ∉ allTies s.ties))))
            k = some (Value.handle hid sv gv) := by
          rw [h_np_untied k hcolon hk]
          exact h_raw_some (k, Value.handle hid sv gv) hmem
        exact transfVal_of_lookup _ _ _ _ _ _ h1
  have h_transf_tied : ∀ dg ∈ s.ties, ∀ m ∈ dg.2, ∀ v,
      (m, v) ∈ s.raw_parameters →
      transfVal (broadcastTies s.ties (tieOverlay s.raw_parameters s.ties
        (s.raw_parameters.filter (fun kv => kv.1 ∉ allTies s.ties)))) (m, v)
      = (alookup s.raw_parameters (dg.2.headD "")).getD (.num 0) := by
    intro dg hdg m hm v hmem
    have htv := h_np_member dg hdg m hm
    have hveq : alookup s.raw_parameters m = some v := h_raw_some (m, v) hmem
    have hpy := (h_groups dg hdg).2.2 m hm
    rw [hveq] at hpy
    cases v with
    | num q =>
        cases htval : (alookup s.raw_parameters (dg.2.headD "")).getD (.num 0) with
        | num q' =>
            rw [htval] at hpy
            simp only [Option.getD_some, pyEq_num_num, beq_iff_eq] at hpy
            rw [transfVal_num, hpy]
        | handle a b c =>
            rw [htval] at hpy
            simp [pyEq] at hpy
    | handle hid sv gv =>
        exact transfVal_of_lookup _ _ _ _ _ _ htv
  have h_newraw_lookup : ∀ k, alookup (rawFrom 0 ((s.scatterers.zip coll).map
        (fun pc => pc.1.from_parameters pc.2 false))) k
      = (alookup s.raw_parameters k).map (fun v => transfVal
          (broadcastTies s.ties (tieOverlay s.raw_parameters s.ties
            (s.raw_parameters.filter (fun kv => kv.1 ∉ allTies s.ties))))
          (k, v)) := by
    intro k
    rw [h_newraw, alookup_map_entry]
  have h_newcheck : checkTies (rawFrom 0 ((s.scatterers.zip coll).map
      (fun pc => pc.1.from_parameters pc.2 false))) s.ties = .ok () := by
    rw [checkTies_ok_iff]
    intro dg hdg
    rw [checkGroup_ok_iff]
    have hg := h_groups dg hdg
    have hhead : dg.2.headD "" ∈ dg.2 := headD_mem hg.1 ""
    obtain ⟨u, hu⟩ : ∃ u, alookup s.raw_parameters (dg.2.headD "") = some u :=
      Option.isSome_iff_exists.mp (hg.2.1 _ hhead)
    refine ⟨hg.1, ?_, ?_⟩
    · intro m hm
      rw [h_newraw_lookup m]
      rcases Option.isSome_iff_exists.mp (hg.2.1 m hm) with ⟨v, hv⟩
      rw [hv]
      rfl
    · intro m hm
      rcases Option.isSome_iff_exists.mp (hg.2.1 m hm) with ⟨v, hv⟩
      rw [h_newraw_lookup m, h_newraw_lookup (dg.2.headD ""), hv, hu]
      simp only [Option.map_some', Option.getD_some]
      rw [h_transf_tied dg hdg m hm v (mem_of_alookup_eq_some hv),
        h_transf_tied dg hdg _ hhead u (mem_of_alookup_eq_some hu)]
      exact pyEq_refl _
  have h_new_sat : ∀ kv ∈ rawFrom 0 ((s.scatterers.zip coll).map
      (fun pc => pc.1.from_parameters pc.2 false)),
      kv.1 ∈ allTies s.ties
      ∨ ∀ kv' ∈ rawFrom 0 ((s.scatterers.zip coll).map
          (fun pc => pc.1.from_parameters pc.2 false)),
          kv'.1 ≠ kv.1 → ¬ tieMatch kv.2 kv'.2 = true := by
    intro kv hmem
    rw [h_newraw] at hmem
    rcases List.mem_map.mp hmem with ⟨⟨k, v⟩, hkv, heq⟩
    subst heq
    by_cases hk : k ∈ allTies s.ties
    · exact Or.inl hk
    · right
      intro kv' hmem' hne
      rw [h_newraw] at hmem'
      rcases List.mem_map.mp hmem' with ⟨⟨k', v'⟩, hkv', heq'⟩
      subst heq'
      simp only at hne ⊢
      have hv : transfVal (broadcastTies s.ties (tieOverlay s.raw_parameters
          s.ties (s.raw_parameters.filter (fun kv => kv.1 ∉ allTies s.ties))))
          (k, v) = v := h_transf_untied (k, v) hkv hk
      rw [hv]
      rcases hsat (k, v) hkv with h1 | h1
      · exact absurd h1 hk
      · by_cases hk' : k' ∈ allTies s.ties
        · rcases mem_allTies.mp hk' with ⟨dg', hdg', hm'⟩
          have hg' := h_groups dg' hdg'
          have hhead' : dg'.2.headD "" ∈ dg'.2 := headD_mem hg'.1 ""
          obtain ⟨u, hu⟩ : ∃ u, alookup s.raw_parameters (dg'.2.headD "")
              = some u := Option.isSome_iff_exists.mp (hg'.2.1 _ hhead')
          have htr : transfVal (broadcastTies s.ties (tieOverlay
              s.raw_parameters s.ties (s.raw_parameters.filter
                (fun kv => kv.1 ∉ allTies s.ties)))) (k', v') = u := by
            have h2 := h_transf_tied dg' hdg' k' hm' v' hkv'
            rw [hu] at h2
            simpa using h2
          rw [htr]
          have hg0ne : dg'.2.headD "" ≠ k := by
            intro hc
            exact hk (hc ▸ mem_allTies.mpr ⟨dg', hdg', hhead'⟩)
          exact h1 _ (mem_of_alookup_eq_some hu) hg0ne
        · have hv' : transfVal (broadcastTies s.ties (tieOverlay
              s.raw_parameters s.ties (s.raw_parameters.filter
                (fun kv => kv.1 ∉ allTies s.ties)))) (k', v') = v' :=
            h_transf_untied (k', v') hkv' hk'
          rw [hv']
          exact h1 _ hkv' hne
  have h_mk : mkScatterers ((s.scatterers.zip coll).map
        (fun pc => pc.1.from_parameters pc.2 false)) s.ties
      = .ok ⟨(s.scatterers.zip coll).map
          (fun pc => pc.1.from_parameters pc.2 false), s.ties⟩ := by
    have hnoop : Scatterers.find_new_ties ⟨(s.scatterers.zip coll).map
        (fun pc => pc.1.from_parameters pc.2 false), s.ties⟩
        = .ok ⟨(s.scatterers.zip coll).map
            (fun pc => pc.1.from_parameters pc.2 false), s.ties⟩ := by
      rw [Scatterers.find_new_ties]
      exact findTiesGo_noop _ _ _ h_new_sat
    simp only [mkScatterers, hnoop]
    rw [show Scatterers.raw_parameters ⟨(s.scatterers.zip coll).map
        (fun pc => pc.1.from_parameters pc.2 false), s.ties⟩
      = rawFrom 0 ((s.scatterers.zip coll).map
          (fun pc => pc.1.from_parameters pc.2 false)) from rfl]
    rw [h_newcheck]
  have h_fromp : s.from_parameters (tieOverlay s.raw_parameters s.ties
      (s.raw_parameters.filter (fun kv => kv.1 ∉ allTies s.ties))) false
      = .ok (⟨(s.scatterers.zip coll).map
          (fun pc => pc.1.from_parameters pc.2 false), s.ties⟩,
        broadcastTies s.ties (tieOverlay s.raw_parameters s.ties
          (s.raw_parameters.filter (fun kv => kv.1 ∉ allTies s.ties)))) := by
    simp only [Scatterers.from_parameters, hfold, h_mk]
  have h_base_eq : (rawFrom 0 ((s.scatterers.zip coll).map
        (fun pc => pc.1.from_parameters pc.2 false))).filter
        (fun kv => kv.1 ∉ allTies s.ties)
      = s.raw_parameters.filter (fun kv => kv.1 ∉ allTies s.ties) := by
    rw [h_newraw]
    rw [filter_map_entry _ _ (fun k => decide (k ∉ allTies s.ties))]
    refine List.map_congr_left ?_ |>.trans (List.map_id _)
    intro kv hkv
    have hmem := List.mem_of_mem_filter hkv
    have hflt : kv.1 ∉ allTies s.ties := by
      have := List.of_mem_filter hkv
      simpa using this
    rw [h_transf_untied kv hmem hflt]
    rfl
  have h_overlay_eq : tieOverlay (rawFrom 0 ((s.scatterers.zip coll).map
        (fun pc => pc.1.from_parameters pc.2 false))) s.ties
        (s.raw_parameters.filter (fun kv => kv.1 ∉ allTies s.ties))
      = tieOverlay s.raw_parameters s.ties
        (s.raw_parameters.filter (fun kv => kv.1 ∉ allTies s.ties)) := by
    refine tieOverlay_congr _ _ _ _ ?_
    intro dg hdg
    have hg := h_groups dg hdg
    have hhead : dg.2.headD "" ∈ dg.2 := headD_mem hg.1 ""
    obtain ⟨u, hu⟩ : ∃ u, alookup s.raw_parameters (dg.2.headD "") = some u :=
      Option.isSome_iff_exists.mp (hg.2.1 _ hhead)
    rw [h_newraw_lookup, hu]
    simp only [Option.map_some']
    rw [h_transf_tied dg hdg _ hhead u (mem_of_alookup_eq_some hu), hu]
    rfl
  have h_final : Scatterers.parameters ⟨(s.scatterers.zip coll).map
        (fun pc => pc.1.from_parameters pc.2 false), s.ties⟩
      = .ok (tieOverlay s.raw_parameters s.ties
          (s.raw_parameters.filter (fun kv => kv.1 ∉ allTies s.ties))) := by
    simp only [Scatterers.parameters, h_newcheck]
    rw [show Scatterers.raw_parameters ⟨(s.scatterers.zip coll).map
        (fun pc => pc.1.from_parameters pc.2 false), s.ties⟩
      = rawFrom 0 ((s.scatterers.zip coll).map
          (fun pc => pc.1.from_parameters pc.2 false)) from rfl]
    rw [h_base_eq, h_overlay_eq, h_newcheck]
  exact ⟨_, _, _, h_view, h_fromp, h_final⟩

/-- Witness for C1_amended: a two-child composite whose shared prior is tied
under the display name "r" (which is itself a member of its group) satisfies
all hypotheses, so parameters / from_parameters round-trip on it. -/
theorem C1_amended_witness :
    ∃ view c' np,
      Scatterers.parameters ⟨[⟨[("r", Value.handle 1 5 5), ("x", Value.num 3)]⟩,
          ⟨[("r", Value.handle 1 5 5)]⟩], [("r", ["0:r", "1:r"])]⟩ = .ok view
      ∧ Scatterers.from_parameters ⟨[⟨[("r", Value.handle 1 5 5),
            ("x", Value.num 3)]⟩, ⟨[("r", Value.handle 1 5 5)]⟩],
          [("r", ["0:r", "1:r"])]⟩ view false = .ok (c', np)
      ∧ c'.parameters = .ok view :=
  C1_amended ⟨[⟨[("r", Value.handle 1 5 5), ("x", Value.num 3)]⟩,
      ⟨[("r", Value.handle 1 5 5)]⟩], [("r", ["0:r", "1:r"])]⟩
    (by decide) (by rfl) (by decide) (by decide) (by decide) (by decide)

/-! ### Tie discovery: characterization (C3) -/

/-- The identity of a stored value: the handle id for a prior, nothing for a
plain number (the guard `par is ref_par and not isinstance(par, Number)` can
only hold between two handles). -/
def handleId : Value → Option ℕ
  | .num _ => none
  | .handle i _ _ => some i

@[simp] theorem handleId_num (q : ℚ) : handleId (.num q) = none := rfl

@[simp] theorem handleId_handle (i : ℕ) (s g : ℚ) :
    handleId (.handle i s g) = some i := rfl

theorem tieMatch_iff_handleId (v w : Value) :
    tieMatch v w = true ↔ ∃ i, handleId v = some i ∧ handleId w = some i := by
  cases v with
  | num q => cases w <;> simp [tieMatch]
  | handle j s g =>
      cases w with
      | num q => simp [tieMatch]
      | handle k t u =>
          simp only [tieMatch_handle_handle, handleId_handle, beq_iff_eq,
            Option.some.injEq]
          constructor
          · intro h
            exact ⟨j, rfl, h.symm⟩
          · rintro ⟨i, hji, hki⟩
            exact hji.trans hki.symm

theorem tieMatch_eq_idpred {v : Value} {i : ℕ} (hv : handleId v = some i)
    (w : Value) : tieMatch v w = (handleId w == some i) := by
  cases v with
  | num q => simp at hv
  | handle j s g =>
      simp only [handleId_handle, Option.some.injEq] at hv
      subst hv
      cases w with
      | num q => simp [tieMatch]
      | handle k t u =>
          simp only [tieMatch_handle_handle, handleId_handle]
          simp [eq_comm]

/-- The first raw key (in namespace order) whose value is the handle with
the given id. -/
def firstIdKey (raw : List (String × Value)) (i : ℕ) : Option String :=
  (raw.find? (fun kv => handleId kv.2 == some i)).map Prod.fst

theorem headD_append_ne {g : List String} (h : g ≠ []) (f d : String) :
    (g ++ [f]).headD d = g.headD d := by
  cases g with
  | nil => exact absurd rfl h
  | cons a tl => rfl

theorem mem_aset_self {β : Type} (l : List (String × β)) (k : String) (v : β) :
    (k, v) ∈ aset l k v := by
  induction l with
  | nil => simp
  | cons hd tl ih =>
      obtain ⟨k0, v0⟩ := hd
      by_cases h : k0 = k
      · subst h; simp
      · simp only [aset_cons, if_neg h]
        exact List.mem_cons_of_mem _ ih

theorem mem_aset_iff {β : Type} {l : List (String × β)}
    (hnd : (l.map Prod.fst).Nodup) {k : String} {v : β} {kv : String × β} :
    kv ∈ aset l k v ↔ (kv ∈ l ∧ kv.1 ≠ k) ∨ kv = (k, v) := by
  induction l with
  | nil => simp
  | cons hd tl ih =>
      obtain ⟨k0, v0⟩ := hd
      rw [List.map_cons, List.nodup_cons] at hnd
      by_cases h : k0 = k
      · subst h
        simp only [aset_cons, if_pos rfl]
        constructor
        · intro hm
          rcases List.mem_cons.mp hm with h1 | h1
          · exact Or.inr h1
          · refine Or.inl ⟨List.mem_cons_of_mem _ h1, ?_⟩
            intro hc
            exact hnd.1 (List.mem_map.mpr ⟨kv, h1, hc⟩)
        · intro hm
          rcases hm with ⟨hmem, hne⟩ | he
          · rcases List.mem_cons.mp hmem with h1 | h1
            · exact absurd (congrArg Prod.fst h1) hne
            · exact List.mem_cons_of_mem _ h1
          · exact he ▸ List.mem_cons_self _ _
      · simp only [aset_cons, if_neg h, List.mem_cons]
        rw [ih hnd.2]
        constructor
        · rintro (h1 | h1)
          · exact Or.inl ⟨Or.inl h1, by rw [h1]; exact h⟩
          · rcases h1 with ⟨hm, hne⟩ | he
            · exact Or.inl ⟨Or.inr hm, hne⟩
            · exact Or.inr he
        · rintro (⟨hm, hne⟩ | he)
          · rcases hm with h1 | h1
            · exact Or.inl h1
            · exact Or.inr (Or.inl ⟨h1, hne⟩)
          · exact Or.inr (Or.inr he)

theorem entry_eq_of_key_eq {β : Type} {l : List (String × β)}
    (hnd : (l.map Prod.fst).Nodup) {a b : String × β}
    (ha : a ∈ l) (hb : b ∈ l) (hk : a.1 = b.1) : a = b := by
  obtain ⟨k1, v1⟩ := a
  obtain ⟨k2, v2⟩ := b
  simp only at hk
  subst hk
  have h1 := alookup_eq_some_of_mem_nodup hnd ha
  have h2 := alookup_eq_some_of_mem_nodup hnd hb
  rw [h1] at h2
  cases h2
  rfl

theorem asetFoldB_lookup {β : Type} (ms : List String) (v : β)
    (d : List (String × β)) (m : String) :
    alookup (ms.foldl (fun d' x => aset d' x v) d) m
      = if m ∈ ms then some v else alookup d m := by
  induction ms generalizing d with
  | nil => simp
  | cons x tl ih =>
      rw [List.foldl_cons, ih]
      by_cases hm : m ∈ tl
      · simp [hm]
      · by_cases hx : x = m
        · subst hx
          simp [hm, alookup_aset]
        · simp only [List.mem_cons, hm, or_false]
          rw [alookup_aset_ne _ _ _ _ hx]
          by_cases h2 : m = x
          · exact absurd h2.symm hx
          · simp [Ne.symm hx]

theorem revFold_frame (ties : List (String × List String)) :
    ∀ (acc : List (String × String)) (m : String), (∀ dg ∈ ties, m ∉ dg.2) →
      alookup (ties.foldl
          (fun a tg => tg.2.foldl (fun a' t => aset a' t tg.1) a) acc) m
        = alookup acc m := by
  induction ties with
  | nil => intro acc m _; rfl
  | cons hd tl ih =>
      intro acc m hm
      rw [List.foldl_cons, ih _ m (fun dg hdg => hm dg (List.mem_cons_of_mem _ hdg))]
      rw [asetFoldB_lookup]
      simp [hm hd (List.mem_cons_self _ _)]

theorem revFold_lookup (ties : List (String × List String)) :
    ∀ (acc : List (String × String)),
      (ties.map Prod.fst).Nodup →
      (∀ dg ∈ ties, ∀ dg' ∈ ties, ∀ m, m ∈ dg.2 → m ∈ dg'.2 → dg = dg') →
      ∀ dg ∈ ties, ∀ m ∈ dg.2,
        alookup (ties.foldl
            (fun a tg => tg.2.foldl (fun a' t => aset a' t tg.1) a) acc) m
          = some dg.1 := by
  induction ties with
  | nil => intro acc _ _ dg hdg; simp at hdg
  | cons hd tl ih =>
      intro acc hnd hdisj dg hdg m hm
      rw [List.map_cons, List.nodup_cons] at hnd
      rw [List.foldl_cons]
      rcases List.mem_cons.mp hdg with h1 | h1
      · subst h1
        have hnotl : ∀ dg' ∈ tl, m ∉ dg'.2 := by
          intro dg' hdg' hmem
          have heq := hdisj dg (List.mem_cons_self _ _) dg'
            (List.mem_cons_of_mem _ hdg') m hm hmem
          exact hnd.1 (by rw [heq]; exact List.mem_map.mpr ⟨dg', hdg', rfl⟩)
        rw [revFold_frame tl _ m hnotl, asetFoldB_lookup]
        simp [hm]
      · refine ih _ hnd.2 ?_ dg h1 m hm
        intro a ha b hb m' hma hmb
        exact hdisj a (List.mem_cons_of_mem _ ha) b (List.mem_cons_of_mem _ hb)
          m' hma hmb

theorem reversedTies_lookup (ties : List (String × List String))
    (hnd : (ties.map Prod.fst).Nodup)
    (hdisj : ∀ dg ∈ ties, ∀ dg' ∈ ties, ∀ m, m ∈ dg.2 → m ∈ dg'.2 → dg = dg') :
    ∀ dg ∈ ties, ∀ m ∈ dg.2, alookup (reversedTies ties) m = some dg.1 :=
  revFold_lookup ties [] hnd hdisj

theorem find?_append_eq {α : Type} (l1 l2 : List α) (p : α → Bool) :
    (l1 ++ l2).find? p = ((l1.find? p).orElse (fun _ => l2.find? p)) := by
  induction l1 with
  | nil => simp
  | cons x tl ih =>
      by_cases hp : p x = true
      · rw [List.cons_append, List.find?_cons_of_pos _ hp,
          List.find?_cons_of_pos _ hp]
        rfl
      · rw [List.cons_append, List.find?_cons_of_neg _ (by simpa using hp),
          List.find?_cons_of_neg _ (by simpa using hp), ih]

theorem dictWithout_find_eq (raw : List (String × Value)) (f : String)
    (v : Value) (i : ℕ) (hvi : handleId v = some i) :
    (dictWithout raw f).find? (fun rp => tieMatch v rp.2)
      = raw.find? (fun x => decide (x.1 ≠ f) && (handleId x.2 == some i)) := by
  induction raw with
  | nil => rfl
  | cons x tl ih =>
      rw [dictWithout] at ih ⊢
      by_cases hne : x.1 ≠ f
      · rw [List.filter_cons_of_pos (by simpa using hne)]
        by_cases hq : (handleId x.2 == some i) = true
        · rw [List.find?_cons_of_pos _ (by rw [tieMatch_eq_idpred hvi]; exact hq),
            List.find?_cons_of_pos _ (by simp [hne, hq])]
        · rw [List.find?_cons_of_neg _
              (by rw [tieMatch_eq_idpred hvi]; simpa using hq),
            List.find?_cons_of_neg _ (by simp [hq]), ih]
      · rw [List.filter_cons_of_neg (by simpa using hne),
          List.find?_cons_of_neg _ (by simp [hne]), ih]

theorem find?_first_id (raw : List (String × Value)) (f : String) (i : ℕ)
    {kv0 : String × Value}
    (h0 : raw.find? (fun kv => handleId kv.2 == some i) = some kv0)
    (hne : kv0.1 ≠ f) :
    raw.find? (fun x => decide (x.1 ≠ f) && (handleId x.2 == some i))
      = some kv0 := by
  induction raw with
  | nil => simp at h0
  | cons x tl ih =>
      by_cases hq : (handleId x.2 == some i) = true
      · simp only [List.find?_cons, hq] at h0 ⊢
        cases h0
        simp [hne]
      · have hqf : (handleId x.2 == some i) = false := by
          simpa using hq
        simp only [List.find?_cons, hqf, Bool.and_false] at h0 ⊢
        exact ih h0

/-- The invariant maintained by `_find_new_ties` over the tie table (for a
composite with colon-free child-level names, starting from an empty table):
groups have unique display names, are nonempty, consist of raw keys all
holding one handle id with the group's first member the first such key in
namespace order, are pairwise disjoint, and are named by the colon-suffix of
their first member or (on collision) by the first member itself. -/
structure TieInv (raw : List (String × Value))
    (ties : List (String × List String)) : Prop where
  keysND : (ties.map Prod.fst).Nodup
  nonempty : ∀ dg ∈ ties, dg.2 ≠ []
  gid : ∀ dg ∈ ties, ∃ i,
      (∀ m ∈ dg.2, ∃ v, alookup raw m = some v ∧ handleId v = some i)
      ∧ firstIdKey raw i = some (dg.2.headD "")
  disj : ∀ dg ∈ ties, ∀ dg' ∈ ties, ∀ m, m ∈ dg.2 → m ∈ dg'.2 → dg = dg'
  naming : ∀ dg ∈ ties, dg.1 = (splitFirst (dg.2.headD "")).getLastD ""
      ∨ dg.1 = dg.2.headD ""
  colonDisp : ∀ dg ∈ ties, ':' ∈ dg.1.toList → dg.1 = dg.2.headD ""

/-- Appending a new member (holding the group's handle) to an existing group
preserves the discovery invariant and only grows the set of tied raw names. -/
theorem tieInv_append {raw : List (String × Value)}
    {ties : List (String × List String)} (inv : TieInv raw ties)
    {d0 : String} {g0 : List String} (hmem : (d0, g0) ∈ ties)
    {f : String} {v : Value} {i : ℕ}
    (hf : alookup raw f = some v) (hvi : handleId v = some i)
    (hnot : f ∉ allTies ties)
    {m0 : String} (hm0 : m0 ∈ g0) {w : Value}
    (hw : alookup raw m0 = some w) (hwi : handleId w = some i) :
    TieInv raw (aset ties d0 (g0 ++ [f]))
    ∧ (∀ k, k ∈ allTies ties → k ∈ allTies (aset ties d0 (g0 ++ [f])))
    ∧ f ∈ allTies (aset ties d0 (g0 ++ [f])) := by
  have hlk : alookup ties d0 = some g0 :=
    alookup_eq_some_of_mem_nodup inv.keysND hmem
  have hisS : (alookup ties d0).isSome := by rw [hlk]; rfl
  have hkeysEq : (aset ties d0 (g0 ++ [f])).map Prod.fst = ties.map Prod.fst := by
    rw [aset_keys, if_pos hisS]
  have hmemIff : ∀ kv : String × List String,
      kv ∈ aset ties d0 (g0 ++ [f])
        ↔ (kv ∈ ties ∧ kv.1 ≠ d0) ∨ kv = (d0, g0 ++ [f]) :=
    fun kv => mem_aset_iff inv.keysND
  have hnewmem : (d0, g0 ++ [f]) ∈ aset ties d0 (g0 ++ [f]) :=
    mem_aset_self _ _ _
  have hg0ne : g0 ≠ [] := inv.nonempty _ hmem
  have hhead : (g0 ++ [f]).headD "" = g0.headD "" := headD_append_ne hg0ne f ""
  have hfnotg : ∀ dg ∈ ties, f ∉ dg.2 := by
    intro dg hdg hc
    exact hnot (mem_allTies.mpr ⟨dg, hdg, hc⟩)
  obtain ⟨i0, hgi0, hfst0⟩ := inv.gid (d0, g0) hmem
  have hi0 : i0 = i := by
    obtain ⟨w', hw', hwi'⟩ := hgi0 m0 hm0
    rw [hw] at hw'
    cases hw'
    rw [hwi] at hwi'
    exact (Option.some.injEq _ _).mp hwi'.symm
  subst hi0
  refine ⟨⟨?_, ?_, ?_, ?_, ?_, ?_⟩, ?_, ?_⟩
  · rw [hkeysEq]; exact inv.keysND
  · intro dg hdg
    rcases (hmemIff dg).mp hdg with ⟨h1, _⟩ | h1
    · exact inv.nonempty dg h1
    · rw [h1]; simp
  · intro dg hdg
    rcases (hmemIff dg).mp hdg with ⟨h1, _⟩ | h1
    · exact inv.gid dg h1
    · subst h1
      refine ⟨i0, ?_, ?_⟩
      · intro m hm
        rcases List.mem_append.mp hm with h2 | h2
        · exact hgi0 m h2
        · simp only [List.mem_singleton] at h2
          subst h2
          exact ⟨v, hf, hvi⟩
      · simp only [hhead]
        exact hfst0
  · intro dg hdg dg' hdg' m hm hm'
    rcases (hmemIff dg).mp hdg with ⟨h1, hne1⟩ | h1 <;>
      rcases (hmemIff dg').mp hdg' with ⟨h1', hne1'⟩ | h1'
    · exact inv.disj dg h1 dg' h1' m hm hm'
    · subst h1'
      rcases List.mem_append.mp hm' with h2 | h2
      · exact absurd (congrArg Prod.fst (inv.disj dg h1 (d0, g0) hmem m hm h2)) hne1
      · simp only [List.mem_singleton] at h2
        subst h2
        exact absurd hm (hfnotg dg h1)
    · subst h1
      rcases List.mem_append.mp hm with h2 | h2
      · exact absurd (congrArg Prod.fst
          (inv.disj dg' h1' (d0, g0) hmem m hm' h2)) hne1'
      · simp only [List.mem_singleton] at h2
        subst h2
        exact absurd hm' (hfnotg dg' h1')
    · rw [h1, h1']
  · intro dg hdg
    rcases (hmemIff dg).mp hdg with ⟨h1, _⟩ | h1
    · exact inv.naming dg h1
    · subst h1
      simp only [hhead]
      exact inv.naming (d0, g0) hmem
  · intro dg hdg hcol
    rcases (hmemIff dg).mp hdg with ⟨h1, _⟩ | h1
    · exact inv.colonDisp dg h1 hcol
    · subst h1
      simp only [hhead]
      exact inv.colonDisp (d0, g0) hmem hcol
  · intro k hk
    rcases mem_allTies.mp hk with ⟨dg, hdg, hkm⟩
    by_cases hdk : dg.1 = d0
    · have hdgeq : dg = (d0, g0) := entry_eq_of_key_eq inv.keysND hdg hmem hdk
      refine mem_allTies.mpr ⟨(d0, g0 ++ [f]), hnewmem, ?_⟩
      refine List.mem_append.mpr (Or.inl ?_)
      rw [hdgeq] at hkm
      exact hkm
    · exact mem_allTies.mpr ⟨dg, (hmemIff dg).mpr (Or.inl ⟨hdg, hdk⟩), hkm⟩
  · exact mem_allTies.mpr ⟨(d0, g0 ++ [f]), hnewmem, by simp⟩

/-- Creating a brand-new two-member group (both members untied, holding one
handle whose first raw occurrence is the new first member) preserves the
discovery invariant. -/
theorem tieInv_newGroup {raw : List (String × Value)}
    {ties : List (String × List String)} (inv : TieInv raw ties)
    {name f p : String} {v w : Value} {i : ℕ}
    (hf : alookup raw f = some v) (hvi : handleId v = some i)
    (hp : alookup raw p = some w) (hpi : handleId w = some i)
    (hfirst : firstIdKey raw i = some f)
    (hfnot : f ∉ allTies ties) (hpnot : p ∉ allTies ties)
    (hname : name ∉ ties.map Prod.fst)
    (hnaming : name = (splitFirst f).getLastD "" ∨ name = f)
    (hcol : ':' ∈ name.toList → name = f) :
    TieInv raw (aset ties name [f, p])
    ∧ (∀ k, k ∈ allTies ties → k ∈ allTies (aset ties name [f, p]))
    ∧ f ∈ allTies (aset ties name [f, p]) := by
  have hmemIff : ∀ kv : String × List String,
      kv ∈ aset ties name [f, p]
        ↔ (kv ∈ ties ∧ kv.1 ≠ name) ∨ kv = (name, [f, p]) :=
    fun kv => mem_aset_iff inv.keysND
  have hnewmem : (name, [f, p]) ∈ aset ties name [f, p] := mem_aset_self _ _ _
  have hnotg : ∀ dg ∈ ties, f ∉ dg.2 ∧ p ∉ dg.2 := by
    intro dg hdg
    exact ⟨fun hc => hfnot (mem_allTies.mpr ⟨dg, hdg, hc⟩),
      fun hc => hpnot (mem_allTies.mpr ⟨dg, hdg, hc⟩)⟩
  refine ⟨⟨?_, ?_, ?_, ?_, ?_, ?_⟩, ?_, ?_⟩
  · exact aset_nodup _ _ _ inv.keysND
  · intro dg hdg
    rcases (hmemIff dg).mp hdg with ⟨h1, _⟩ | h1
    · exact inv.nonempty dg h1
    · rw [h1]; simp
  · intro dg hdg
    rcases (hmemIff dg).mp hdg with ⟨h1, _⟩ | h1
    · exact inv.gid dg h1
    · subst h1
      refine ⟨i, ?_, hfirst⟩
      intro m hm
      rcases List.mem_cons.mp hm with h2 | h2
      · subst h2
        exact ⟨v, hf, hvi⟩
      · simp only [List.mem_singleton] at h2
        subst h2
        exact ⟨w, hp, hpi⟩
  · intro dg hdg dg' hdg' m hm hm'
    rcases (hmemIff dg).mp hdg with ⟨h1, hne1⟩ | h1 <;>
      rcases (hmemIff dg').mp hdg' with ⟨h1', hne1'⟩ | h1'
    · exact inv.disj dg h1 dg' h1' m hm hm'
    · subst h1'
      rcases List.mem_cons.mp hm' with h2 | h2
      · subst h2
        exact absurd hm (hnotg dg h1).1
      · simp only [List.mem_singleton] at h2
        subst h2
        exact absurd hm (hnotg dg h1).2
    · subst h1
      rcases List.mem_cons.mp hm with h2 | h2
      · subst h2
        exact absurd hm' (hnotg dg' h1').1
      · simp only [List.mem_singleton] at h2
        subst h2
        exact absurd hm' (hnotg dg' h1').2
    · rw [h1, h1']
  · intro dg hdg
    rcases (hmemIff dg).mp hdg with ⟨h1, _⟩ | h1
    · exact inv.naming dg h1
    · subst h1
      exact hnaming
  · intro dg hdg hcol2
    rcases (hmemIff dg).mp hdg with ⟨h1, _⟩ | h1
    · exact inv.colonDisp dg h1 hcol2
    · subst h1
      exact hcol hcol2
  · intro k hk
    rcases mem_allTies.mp hk with ⟨dg, hdg, hkm⟩
    have hdk : dg.1 ≠ name := by
      intro hc
      exact hname (hc ▸ List.mem_map.mpr ⟨dg, hdg, rfl⟩)
    exact mem_allTies.mpr ⟨dg, (hmemIff dg).mpr (Or.inl ⟨hdg, hdk⟩), hkm⟩
  · exact mem_allTies.mpr ⟨(name, [f, p]), hnewmem, by simp⟩

/-- The discovery loop of `_find_new_ties`, fully characterized: starting
from a table satisfying the invariant, with every already-processed key that
has an identity partner somewhere already tied, a successful run yields the
same children, a table satisfying the invariant, and every raw key with an
identity partner tied. -/
theorem findTies_characterize (raw : List (String × Value))
    (hndraw : (raw.map Prod.fst).Nodup)
    (hshape : ∀ kv ∈ raw, ∃ j nm, kv.1 = pfx j nm ∧ ':' ∉ nm.toList) :
    ∀ (rest done : List (String × Value)) (s c : Scatterers),
      raw = done ++ rest →
      TieInv raw s.ties →
      (∀ kv ∈ done, (∃ kv' ∈ raw, kv'.1 ≠ kv.1 ∧ tieMatch kv.2 kv'.2 = true) →
        kv.1 ∈ allTies s.ties) →
      findTiesGo raw rest s = .ok c →
      c.scatterers = s.scatterers ∧ TieInv raw c.ties
      ∧ (∀ kv ∈ raw, (∃ kv' ∈ raw, kv'.1 ≠ kv.1 ∧ tieMatch kv.2 kv'.2 = true) →
          kv.1 ∈ allTies c.ties) := by
  intro rest
  induction rest with
  | nil =>
      intro done s c hsplit hinv hdone hrun
      rw [findTiesGo] at hrun
      cases hrun
      rw [List.append_nil] at hsplit
      refine ⟨rfl, hinv, ?_⟩
      intro kv hkv hex
      rw [hsplit] at hkv
      exact hdone kv hkv hex
  | cons hd rest' ih =>
      intro done s c hsplit hinv hdone hrun
      obtain ⟨f, v⟩ := hd
      have hfraw : (f, v) ∈ raw := by
        rw [hsplit]
        exact List.mem_append.mpr (Or.inr (List.mem_cons_self _ _))
      have hsplit' : raw = (done ++ [(f, v)]) ++ rest' := by
        rw [List.append_assoc]
        exact hsplit
      rw [findTiesGo] at hrun
      by_cases hmem : f ∈ allTies s.ties
      · rw [if_pos hmem] at hrun
        refine ih (done ++ [(f, v)]) s c hsplit' hinv ?_ hrun
        intro kv hkv hex
        rcases List.mem_append.mp hkv with h1 | h1
        · exact hdone kv h1 hex
        · simp only [List.mem_singleton] at h1
          subst h1
          exact hmem
      · rw [if_neg hmem] at hrun
        cases hfind : (dictWithout raw f).find? (fun rp => tieMatch v rp.2) with
        | none =>
            rw [hfind] at hrun
            refine ih (done ++ [(f, v)]) s c hsplit' hinv ?_ hrun
            intro kv hkv hex
            rcases List.mem_append.mp hkv with h1 | h1
            · exact hdone kv h1 hex
            · simp only [List.mem_singleton] at h1
              subst h1
              obtain ⟨kv', hkv', hne', hmt'⟩ := hex
              have hkv'd : kv' ∈ dictWithout raw f := by
                rw [dictWithout]
                exact List.mem_filter.mpr ⟨hkv', by simpa using hne'⟩
              have hnp := List.find?_eq_none.mp hfind kv' hkv'd
              simp only at hnp
              exact absurd hmt' hnp
        | some rp =>
            simp only [hfind] at hrun
            cases hadd : s.add_tie rp.1 f with
            | error e =>
                simp only [hadd] at hrun
                exact absurd hrun (by simp)
            | ok s' =>
                simp only [hadd] at hrun
                have hrpmem : rp ∈ dictWithout raw f :=
                  List.mem_of_find?_eq_some hfind
                have hrptm : tieMatch v rp.2 = true := by
                  have := List.find?_some hfind
                  simpa using this
                have hrpraw : rp ∈ raw := List.mem_of_mem_filter hrpmem
                have hrpne : rp.1 ≠ f := by
                  have := List.of_mem_filter hrpmem
                  simpa using this
                obtain ⟨i, hvi, hrpi⟩ := (tieMatch_iff_handleId v rp.2).mp hrptm
                have hfv : alookup raw f = some v :=
                  alookup_eq_some_of_mem_nodup hndraw hfraw
                have hrpv : alookup raw rp.1 = some rp.2 :=
                  alookup_eq_some_of_mem_nodup hndraw hrpraw
                rw [Scatterers.add_tie] at hadd
                cases htab : addTieTable s.ties rp.1 f with
                | error e2 =>
                    simp only [htab] at hadd
                    exact absurd hadd (by simp)
                | ok t =>
                    simp only [htab] at hadd
                    cases hchk : checkTies
                        (Scatterers.raw_parameters { s with ties := t }) t with
                    | error e3 =>
                        simp only [hchk] at hadd
                        exact absurd hadd (by simp)
                    | ok u =>
                        simp only [hchk] at hadd
                        cases hadd
                        have hstep : TieInv raw t
                            ∧ (∀ k, k ∈ allTies s.ties → k ∈ allTies t)
                            ∧ f ∈ allTies t := by
                          by_cases hk1 : (alookup s.ties rp.1).isSome
                          · obtain ⟨g0, hg0⟩ := Option.isSome_iff_exists.mp hk1
                            rw [addTieTable, if_pos hk1, hg0] at htab
                            simp only [Option.getD_some] at htab
                            cases htab
                            have hmemt : (rp.1, g0) ∈ s.ties :=
                              mem_of_alookup_eq_some hg0
                            obtain ⟨j, nm, hkey, _⟩ := hshape rp hrpraw
                            have hcolon : ':' ∈ rp.1.toList := by
                              rw [hkey]
                              exact pfx_has_colon _ _
                            have hcd : rp.1 = g0.headD "" :=
                              hinv.colonDisp (rp.1, g0) hmemt hcolon
                            have hrpg0 : rp.1 ∈ g0 := by
                              have hh := headD_mem (hinv.nonempty _ hmemt) ""
                              rw [← hcd] at hh
                              exact hh
                            exact tieInv_append hinv hmemt hfv hvi hmem
                              hrpg0 hrpv hrpi
                          · by_cases hk2 : rp.1 ∈ allTies s.ties
                            · rw [addTieTable, if_neg hk1, if_pos hk2] at htab
                              obtain ⟨dg0, hdg0, hrpg0⟩ := mem_allTies.mp hk2
                              have hrev : alookup (reversedTies s.ties) rp.1
                                  = some dg0.1 :=
                                reversedTies_lookup s.ties hinv.keysND hinv.disj
                                  dg0 hdg0 rp.1 hrpg0
                              rw [hrev] at htab
                              simp only [Option.getD_some] at htab
                              have hlk0 : alookup s.ties dg0.1 = some dg0.2 :=
                                alookup_eq_some_of_mem_nodup hinv.keysND hdg0
                              rw [hlk0] at htab
                              simp only [Option.getD_some] at htab
                              cases htab
                              exact tieInv_append hinv hdg0 hfv hvi hmem
                                hrpg0 hrpv hrpi
                            · rw [addTieTable, if_neg hk1, if_neg hk2] at htab
                              obtain ⟨j, nm, hkey, hnmcf⟩ := hshape (f, v) hfraw
                              simp only at hkey
                              have hsf : splitFirst f = [Nat.repr j, nm] := by
                                rw [hkey]
                                exact splitFirst_pfx j nm
                              rw [hsf] at htab
                              simp only at htab
                              have hfcolon : ':' ∈ f.toList := by
                                rw [hkey]
                                exact pfx_has_colon _ _
                              have hfnk : f ∉ s.ties.map Prod.fst := by
                                intro hc
                                rcases List.mem_map.mp hc with ⟨dg, hdg, heq⟩
                                have hcd := hinv.colonDisp dg hdg (heq ▸ hfcolon)
                                have hh := headD_mem (hinv.nonempty _ hdg) ""
                                rw [← hcd, heq] at hh
                                exact hmem (mem_allTies.mpr ⟨dg, hdg, hh⟩)
                              have hfirst : firstIdKey raw i = some f := by
                                rw [dictWithout_find_eq raw f v i hvi] at hfind
                                cases h0 : raw.find?
                                    (fun kv => handleId kv.2 == some i) with
                                | none =>
                                    have hnp := List.find?_eq_none.mp h0 rp hrpraw
                                    simp only at hnp
                                    exact absurd (by simp [hrpi]) hnp
                                | some kv0 =>
                                    by_cases hkf : kv0.1 = f
                                    · rw [firstIdKey, h0]
                                      simp [hkf]
                                    · have hcon := find?_first_id raw f i h0 hkf
                                      rw [hfind] at hcon
                                      have hkveq : kv0 = rp := by
                                        injection hcon with h2
                                        exact h2.symm
                                      rw [hkveq] at h0
                                      have h0' := h0
                                      rw [hsplit, find?_append_eq] at h0'
                                      cases hd0 : done.find?
                                          (fun kv => handleId kv.2 == some i) with
                                      | some x =>
                                          rw [hd0] at h0'
                                          have hx : rp = x := by
                                            have := h0'
                                            simp only [Option.orElse] at this
                                            exact (Option.some.injEq _ _).mp this.symm
                                          rw [hx] at hrpne hrpi hk2
                                          have hxdone : x ∈ done :=
                                            List.mem_of_find?_eq_some hd0
                                          have hall := hdone x hxdone
                                            ⟨(f, v), hfraw, Ne.symm hrpne,
                                              (tieMatch_iff_handleId _ _).mpr
                                                ⟨i, hrpi, hvi⟩⟩
                                          exact absurd hall hk2
                                      | none =>
                                          rw [hd0] at h0'
                                          have hcons : ((f, v) :: rest').find?
                                              (fun kv => handleId kv.2 == some i)
                                              = some rp := by
                                            simpa using h0'
                                          simp only [List.find?_cons, hvi,
                                            beq_self_eq_true] at hcons
                                          have hf1 : rp.1 = f := by
                                            injection hcons with h2
                                            rw [← h2]
                                          exact absurd hf1 hrpne
                              by_cases hk3 : (alookup s.ties nm).isSome
                              · rw [if_pos hk3] at htab
                                cases htab
                                exact tieInv_newGroup hinv hfv hvi hrpv hrpi
                                  hfirst hmem hk2 hfnk (Or.inr rfl)
                                  (fun _ => rfl)
                              · rw [if_neg hk3] at htab
                                cases htab
                                have hnmnk : nm ∉ s.ties.map Prod.fst := by
                                  intro hc
                                  exact hk3 (by
                                    rw [alookup_isSome_iff_mem]
                                    exact hc)
                                refine tieInv_newGroup hinv hfv hvi hrpv hrpi
                                  hfirst hmem hk2 hnmnk (Or.inl ?_)
                                  (fun hc => absurd hc hnmcf)
                                rw [hsf]
                                rfl
                        have hres := ih (done ++ [(f, v)])
                          { s with ties := t } c hsplit' hstep.1 ?_ hrun
                        · exact ⟨hres.1, hres.2.1, hres.2.2⟩
                        · intro kv hkv hex
                          rcases List.mem_append.mp hkv with h1 | h1
                          · exact hstep.2.1 _ (hdone kv h1 hex)
                          · simp only [List.mem_singleton] at h1
                            subst h1
                            exact hstep.2.2

/-- C3: counterexample.  A child whose own parameter name contains a colon
("1:r") makes the discovery fallback group name collide with the raw key
"1:r" of an unrelated handle: `add_tie` then appends to the colliding group,
merging two distinct handles (ids 1 and 2) into one tie group — the members
"0:a" (handle 1) and "1:b" (handle 2) share a group although their values
are not the identical handle, refuting the claimed iff. -/
theorem C3_counterexample :
    mkScatterers [⟨[("1:r", Value.handle 1 5 5), ("a", Value.handle 1 5 5)]⟩,
        ⟨[("b", Value.handle 2 5 5), ("r", Value.handle 2 5 5)]⟩] []
      = .ok ⟨[⟨[("1:r", Value.handle 1 5 5), ("a", Value.handle 1 5 5)]⟩,
          ⟨[("b", Value.handle 2 5 5), ("r", Value.handle 2 5 5)]⟩],
        [("1:r", ["0:1:r", "0:a", "1:b", "1:r"])]⟩
    ∧ tieMatch (Value.handle 1 5 5) (Value.handle 2 5 5) = false := ⟨rfl, rfl⟩

/-- C3, amended: for a composite built from children with colon-free,
duplicate-free parameter names and an empty initial tie table, automatic
discovery ties two distinct raw entries into a common group iff they hold
the identical underlying handle (object identity — never plain numbers, and
never mere value-equality); each group is named by stripping the leading
index prefix from its first member, falling back to the full member name on
a display-name collision; and each group collapses to exactly one entry in
the parameters view, whose other members do not appear as view keys.  (With
colon-containing child-level names the iff fails — see the counterexample.) -/
theorem C3_amended (scats : List Prim)
    (hcf : ∀ p ∈ scats, ∀ kv ∈ p.params, ':' ∉ kv.1.toList)
    (hnd : ∀ p ∈ scats, (p.params.map Prod.fst).Nodup)
    (c : Scatterers) (h : mkScatterers scats [] = .ok c) :
    (∀ k v k' v', (k, v) ∈ c.raw_parameters → (k', v') ∈ c.raw_parameters →
        k ≠ k' →
        ((∃ dg ∈ c.ties, k ∈ dg.2 ∧ k' ∈ dg.2) ↔ tieMatch v v' = true))
    ∧ (∀ dg ∈ c.ties, dg.1 = (splitFirst (dg.2.headD "")).getLastD ""
        ∨ dg.1 = dg.2.headD "")
    ∧ (∃ view, c.parameters = .ok view ∧ ∀ dg ∈ c.ties,
        (view.map Prod.fst).count dg.1 = 1
        ∧ ∀ m ∈ dg.2, m ≠ dg.1 → m ∉ view.map Prod.fst) := by
  have hndraw : ((rawFrom 0 scats).map Prod.fst).Nodup :=
    rawFrom_nodup scats hnd 0
  have hshape : ∀ kv ∈ rawFrom 0 scats,
      ∃ j nm, kv.1 = pfx j nm ∧ ':' ∉ nm.toList := by
    intro kv hkv
    rcases rawFrom_mem hkv with ⟨j, hj, nm, hkey, hmemp⟩
    exact ⟨0 + j, nm, hkey, hcf _ (List.get_mem _ _ _) _ hmemp⟩
  rw [mkScatterers] at h
  cases hft : Scatterers.find_new_ties ⟨scats, []⟩ with
  | error e =>
      simp only [hft] at h
      exact absurd h (by simp)
  | ok s1 =>
      simp only [hft] at h
      cases hchk : checkTies s1.raw_parameters s1.ties with
      | error e2 =>
          simp only [hchk] at h
          exact absurd h (by simp)
      | ok u =>
          simp only [hchk] at h
          have hceq : s1 = c := by
            injection h
          subst hceq
          rw [Scatterers.find_new_ties] at hft
          rw [show Scatterers.raw_parameters ⟨scats, []⟩ = rawFrom 0 scats
            from rfl] at hft
          have hchar := findTies_characterize (rawFrom 0 scats) hndraw hshape
            (rawFrom 0 scats) [] ⟨scats, []⟩ s1 rfl
            ⟨by simp, by simp, by simp, by simp, by simp, by simp⟩
            (by simp) hft
          obtain ⟨hscat, hinvF, hsatF⟩ := hchar
          have hcraw : s1.raw_parameters = rawFrom 0 scats := by
            rw [Scatterers.raw_parameters, hscat]
          refine ⟨?_, hinvF.naming, ?_⟩
          · intro k v k' v' hk hk' hne
            rw [hcraw] at hk hk'
            have hv : alookup (rawFrom 0 scats) k = some v :=
              alookup_eq_some_of_mem_nodup hndraw hk
            have hv' : alookup (rawFrom 0 scats) k' = some v' :=
              alookup_eq_some_of_mem_nodup hndraw hk'
            constructor
            · rintro ⟨dg, hdg, hkm, hk'm⟩
              obtain ⟨i, hgi, _⟩ := hinvF.gid dg hdg
              obtain ⟨w, hw, hwi⟩ := hgi k hkm
              obtain ⟨w', hw', hwi'⟩ := hgi k' hk'm
              rw [hv] at hw
              rw [hv'] at hw'
              cases hw
              cases hw'
              exact (tieMatch_iff_handleId v v').mpr ⟨i, hwi, hwi'⟩
            · intro hmt
              have h1 : k ∈ allTies s1.ties := hsatF (k, v) hk
                ⟨(k', v'), hk', Ne.symm hne, hmt⟩
              have h2 : k' ∈ allTies s1.ties := hsatF (k', v') hk'
                ⟨(k, v), hk, hne, tieMatch_symm hmt⟩
              obtain ⟨dg, hdg, hkdg⟩ := mem_allTies.mp h1
              obtain ⟨dg', hdg', hk'dg⟩ := mem_allTies.mp h2
              obtain ⟨i1, hgi1, hfst1⟩ := hinvF.gid dg hdg
              obtain ⟨i2, hgi2, hfst2⟩ := hinvF.gid dg' hdg'
              obtain ⟨i, hvi, hv'i⟩ := (tieMatch_iff_handleId v v').mp hmt
              have hi1 : i1 = i := by
                obtain ⟨w, hw, hwi⟩ := hgi1 k hkdg
                rw [hv] at hw
                cases hw
                rw [hvi] at hwi
                exact ((Option.some.injEq _ _).mp hwi).symm
              have hi2 : i2 = i := by
                obtain ⟨w, hw, hwi⟩ := hgi2 k' hk'dg
                rw [hv'] at hw
                cases hw
                rw [hv'i] at hwi
                exact ((Option.some.injEq _ _).mp hwi).symm
              rw [hi1] at hfst1
              rw [hi2] at hfst2
              rw [hfst1] at hfst2
              have hheads : dg.2.headD "" = dg'.2.headD "" :=
                (Option.some.injEq _ _).mp hfst2
              have hh1 : dg.2.headD "" ∈ dg.2 :=
                headD_mem (hinvF.nonempty dg hdg) ""
              have hh2 : dg'.2.headD "" ∈ dg'.2 :=
                headD_mem (hinvF.nonempty dg' hdg') ""
              rw [hheads] at hh1
              have hdgeq : dg = dg' := hinvF.disj dg hdg dg' hdg' _ hh1 hh2
              refine ⟨dg, hdg, hkdg, ?_⟩
              rw [hdgeq]
              exact hk'dg
          · refine ⟨tieOverlay s1.raw_parameters s1.ties
                (s1.raw_parameters.filter (fun kv => kv.1 ∉ allTies s1.ties)),
              by simp only [Scatterers.parameters, hchk], ?_⟩
            intro dg hdg
            have hbase_nd : ((s1.raw_parameters.filter
                (fun kv => kv.1 ∉ allTies s1.ties)).map Prod.fst).Nodup :=
              ((List.filter_sublist _).map Prod.fst).nodup
                (by rw [hcraw]; exact hndraw)
            have hvnd := tieOverlay_nodup s1.raw_parameters s1.ties
              (s1.raw_parameters.filter (fun kv => kv.1 ∉ allTies s1.ties))
              hbase_nd
            have hlk := tieOverlay_lookup s1.raw_parameters s1.ties
              (s1.raw_parameters.filter (fun kv => kv.1 ∉ allTies s1.ties))
              hinvF.keysND dg hdg
            have hmemv : dg.1 ∈ (tieOverlay s1.raw_parameters s1.ties
                (s1.raw_parameters.filter
                  (fun kv => kv.1 ∉ allTies s1.ties))).map Prod.fst :=
              alookup_isSome_iff_mem.mp (by rw [hlk]; rfl)
            refine ⟨List.count_eq_one_of_mem hvnd hmemv, ?_⟩
            intro m hm hmne hmemview
            rcases tieOverlay_keys _ _ _ m hmemview with hbase | hdisp2
            · rcases List.mem_map.mp hbase with ⟨kv, hkvf, heq⟩
              have hflt : m ∉ allTies s1.ties := by
                have hdec := List.of_mem_filter hkvf
                simp only [decide_eq_true_eq] at hdec
                rw [heq] at hdec
                exact hdec
              exact hflt (mem_allTies.mpr ⟨dg, hdg, hm⟩)
            · rcases List.mem_map.mp hdisp2 with ⟨dg', hdg', heq'⟩
              have hmraw : m ∈ (rawFrom 0 scats).map Prod.fst := by
                obtain ⟨i, hgi, _⟩ := hinvF.gid dg hdg
                obtain ⟨w, hw, _⟩ := hgi m hm
                exact alookup_isSome_iff_mem.mp (by rw [hw]; rfl)
              have hmcolon : ':' ∈ m.toList := rawFrom_keys_colon hmraw
              have hcd := hinvF.colonDisp dg' hdg'
                (by rw [heq']; exact hmcolon)
              have hh : dg'.2.headD "" ∈ dg'.2 :=
                headD_mem (hinvF.nonempty dg' hdg') ""
              rw [← hcd, heq'] at hh
              have hdgeq := hinvF.disj dg hdg dg' hdg' m hm hh
              apply hmne
              rw [hdgeq]
              exact heq'.symm

/-- C3, amended, witness: two single-parameter children sharing one handle;
the two raw keys "0:r" and "1:r" end up in a common group exactly because
the values are the identical handle. -/
theorem C3_amended_witness :
    (∃ dg ∈ ([("r", ["0:r", "1:r"])] : List (String × List String)),
        "0:r" ∈ dg.2 ∧ "1:r" ∈ dg.2)
      ↔ tieMatch (Value.handle 1 5 5) (Value.handle 1 5 5) = true := by
  have h := C3_amended [⟨[("r", Value.handle 1 5 5)]⟩,
      ⟨[("r", Value.handle 1 5 5)]⟩] (by decide) (by decide)
    ⟨[⟨[("r", Value.handle 1 5 5)]⟩, ⟨[("r", Value.handle 1 5 5)]⟩],
      [("r", ["0:r", "1:r"])]⟩ (by rfl)
  exact h.1 "0:r" (Value.handle 1 5 5) "1:r" (Value.handle 1 5 5)
    (by decide) (by decide) (by decide)

end HolopyModel
